import Mathlib

/-!
# go-password: a shallow embedding of `password/generate.go`

The Go package is embedded as pure Lean functions.

* A Go `byte` is `Fin 256`; a Go `string` and a `[]byte` are both `List Byte`
  (the code only reads strings and only appends to / overwrites one slice that
  it immediately re-binds, so value semantics agree with Go's slices).
* A Go `int` is a Lean `Int`; the additions the code performs are wrapped to the
  64-bit two's-complement range by `wrapInt`.
* `crypto/rand` is an oracle `Source`: the `k`-th draw asked with bound `max`
  either delivers a value or fails.  Every function threads the number `pos` of
  draws made so far, so that "no draw was made" is `pos` unchanged.
* A Go call either returns its pair `(value, err)` or panics: `Exec`.
* `make([]byte, 0, n)` panics for `n < 0` and for `n` above the allocation
  limit `maxAlloc` of the Go runtime (`makeslice: cap out of range`), and
  yields the empty slice otherwise.  Running out of memory below that limit is
  a fatal error of the runtime that depends on the machine; it is not modelled.
* `append` is taken to succeed.  `GenerateLength`, and `Generate` when the sum
  of its counts does not overflow, append no more bytes than the capacity given
  to `make`, so the slice does not grow; how the runtime grows a slice past its
  capacity is not modelled.
-/

namespace Password

/-- A Go `byte`. -/
abbrev Byte := Fin 256

/-- The bytes of an ASCII string literal (one byte per character). -/
def asciiBytes (s : String) : List Byte :=
  s.toList.map (fun c => Fin.ofNat c.toNat)

/-- Lowercase is the default list of lowercase letters. -/
def Lowercase : List Byte := asciiBytes "abcdefghijklmnopqrstuvwxyz"

/-- Uppercase is the default list of uppercase letters. -/
def Uppercase : List Byte := asciiBytes "ABCDEFGHIJKLMNOPQRSTUVWXYZ"

/-- Digits is the default list of permitted digits. -/
def Digits : List Byte := asciiBytes "0123456789"

/-- Symbols is the default list of symbols.  The apostrophe, the backtick and
the two braces of the Go literal are written with their hexadecimal escapes
(27, 60, 7b, 7d). -/
def Symbols : List Byte := asciiBytes "!\"#$%&\x27()*+,-./:;<=>?@[\\]^_\x60\x7b|\x7d~"

/-- The error values of the package, and the errors of the random source.
Go compares errors by identity, so the four sentinels are distinct from each
other and from whatever `crypto/rand` returns. -/
inductive Error where
  | ErrNegativeCharNum
  | ErrTypeExceedsAvailable
  | ErrLengthEmptyGenerator
  | ErrNegativeLength
  | entropy (id : Nat)
  deriving DecidableEq, Repr

/-- One answer of the random source: a delivered number or a failure. -/
inductive Draw where
  | value (v : Int)
  | fail (id : Nat)
  deriving DecidableEq, Repr

/-- The random source: the answer to the `k`-th draw when asked with bound `max`. -/
abbrev Source := Nat → Int → Draw

/-- The outcome of a Go call: the returned pair `(val, err)` together with the
number of draws made so far, or a panic. -/
inductive Exec (α : Type) where
  | returned (val : α) (err : Option Error) (pos : Nat)
  | panicked
  deriving DecidableEq, Repr

/-- Go's 64-bit `int`: the representative of `x` in `[-2^63, 2^63)`, that is
`(x + 2^63) % 2^64 - 2^63` (`wrapInt_eq_emod`).  A value that is already in
range is returned as it is, without arithmetic on it. -/
def wrapInt (x : Int) : Int :=
  match x with
  | .ofNat n => if n < 2 ^ 63 then x else (x + 2 ^ 63) % 2 ^ 64 - 2 ^ 63
  | .negSucc n => if n < 2 ^ 63 then x else (x + 2 ^ 63) % 2 ^ 64 - 2 ^ 63

/-- Go's `+` on `int`. -/
def goAdd (a b : Int) : Int := wrapInt (a + b)

/-- The allocation limit of the Go runtime (`maxAlloc` in `runtime/malloc.go`):
`2^48` bytes on the 64-bit platforms with a 48-bit heap address space, such as
linux/amd64.  `make([]byte, 0, n)` panics in `makeslice` when `n` is negative or
greater than this limit. -/
def maxAlloc : Int := 2 ^ 48

/-- CharSet is used for specifying a custom character set. -/
structure CharSet where
  Lowercase : List Byte
  Uppercase : List Byte
  Digits : List Byte
  Symbols : List Byte
  deriving DecidableEq, Repr

/-- Generator holds the four class strings and the pool `chars`. -/
structure Generator where
  lowercase : List Byte
  uppercase : List Byte
  digits : List Byte
  symbols : List Byte
  chars : List Byte
  deriving DecidableEq, Repr

/-- NewGenerator creates a new Generator from the specified character set; the
nil pointer is `none`. -/
def NewGenerator (c : Option CharSet) : Generator :=
  let c : CharSet :=
    match c with
    | none =>
      { Lowercase := Password.Lowercase
        Uppercase := Password.Uppercase
        Digits := Password.Digits
        Symbols := Password.Symbols }
    | some c => c
  { lowercase := c.Lowercase
    uppercase := c.Uppercase
    digits := c.Digits
    symbols := c.Symbols
    chars := c.Lowercase ++ c.Uppercase ++ c.Digits ++ c.Symbols }

/-- The generator used by the package-level helpers. -/
def defaultGenerator : Generator := NewGenerator none

/-- randomNumberN generates a random int n where 0 <= n < max.
`rand.Int` panics when its bound is not positive, returns the reader's error
when the read fails, and otherwise the delivered number. -/
def randomNumberN (max : Int) (src : Source) (pos : Nat) : Exec Int :=
  if max ≤ 0 then .panicked
  else
    match src pos max with
    | .fail id => .returned 0 (some (.entropy id)) (pos + 1)
    | .value v => .returned v none (pos + 1)

/-- randomNumber generates a random int n where 0 <= n <= max. -/
def randomNumber (max : Int) (src : Source) (pos : Nat) : Exec Int :=
  randomNumberN (goAdd max 1) src pos

/-- randomElement returns a random byte from the string argument; `s[i]` panics
when `i` is out of range. -/
def randomElement (s : List Byte) (src : Source) (pos : Nat) : Exec Byte :=
  match randomNumberN (s.length : Int) src pos with
  | .panicked => .panicked
  | .returned _ (some err) p => .returned 0 (some err) p
  | .returned i none p =>
    if i < 0 then .panicked
    else
      match s[i.toNat]? with
      | some b => .returned b none p
      | none => .panicked

/-- randomlySwap appends the byte at a random location within the byte slice. -/
def randomlySwap (b : List Byte) (e : Byte) (src : Source) (pos : Nat) :
    Exec (List Byte) :=
  let length : Int := (b.length : Int)
  match randomNumber length src pos with
  | .panicked => .panicked
  | .returned _ (some err) p => .returned [] (some err) p
  | .returned j none p =>
    if j = length then .returned (b ++ [e]) none p
    else if j < 0 then .panicked
    else
      match b[j.toNat]? with
      | some x => .returned ((b ++ [x]).set j.toNat e) none p
      | none => .panicked

/-- The body of the loop of `generateCharsetPermute`, run `k` more times. -/
def generateCharsetPermuteLoop (charset : List Byte) :
    Nat → List Byte → Source → Nat → Exec (List Byte)
  | 0, pass, _, pos => .returned pass none pos
  | k + 1, pass, src, pos =>
    match randomElement charset src pos with
    | .panicked => .panicked
    | .returned _ (some err) p => .returned [] (some err) p
    | .returned b none p =>
      match randomlySwap pass b src p with
      | .panicked => .panicked
      | .returned _ (some err) q => .returned [] (some err) q
      | .returned r none q => generateCharsetPermuteLoop charset k r src q

/-- generateCharsetPermute generates n characters from the charset and appends
them to the passed byte slice while also permuting it.  The loop
`for i := 0; i < n; i++` runs `n` times when `n ≥ 0` and not at all otherwise. -/
def generateCharsetPermute (pass : List Byte) (n : Int) (charset : List Byte)
    (src : Source) (pos : Nat) : Exec (List Byte) :=
  generateCharsetPermuteLoop charset n.toNat pass src pos

/-- Generate uses the generator character set to produce a random password. -/
def Generator.Generate (g : Generator) (numLower numUpper numDigits numSymbols : Int)
    (src : Source) (pos : Nat) : Exec (List Byte) :=
  if numLower < 0 ∨ numUpper < 0 ∨ numDigits < 0 ∨ numSymbols < 0 then
    .returned [] (some .ErrNegativeCharNum) pos
  else if numLower > 0 ∧ g.lowercase.length = 0 then
    .returned [] (some .ErrTypeExceedsAvailable) pos
  else if numUpper > 0 ∧ g.uppercase.length = 0 then
    .returned [] (some .ErrTypeExceedsAvailable) pos
  else if numDigits > 0 ∧ g.digits.length = 0 then
    .returned [] (some .ErrTypeExceedsAvailable) pos
  else if numSymbols > 0 ∧ g.symbols.length = 0 then
    .returned [] (some .ErrTypeExceedsAvailable) pos
  else
    let length := goAdd (goAdd (goAdd numLower numUpper) numDigits) numSymbols
    if length = 0 then .returned [] none pos
    else if length < 0 ∨ maxAlloc < length then .panicked
    else
      match generateCharsetPermute [] numLower g.lowercase src pos with
      | .panicked => .panicked
      | .returned _ (some err) p => .returned [] (some err) p
      | .returned pass none p =>
        match generateCharsetPermute pass numUpper g.uppercase src p with
        | .panicked => .panicked
        | .returned _ (some err) p => .returned [] (some err) p
        | .returned pass none p =>
          match generateCharsetPermute pass numDigits g.digits src p with
          | .panicked => .panicked
          | .returned _ (some err) p => .returned [] (some err) p
          | .returned pass none p =>
            match generateCharsetPermute pass numSymbols g.symbols src p with
            | .panicked => .panicked
            | .returned _ (some err) p => .returned [] (some err) p
            | .returned pass none p => .returned pass none p

/-- The body of the loop of `GenerateLength`, run `k` more times. -/
def generateLengthLoop (chars : List Byte) :
    Nat → List Byte → Source → Nat → Exec (List Byte)
  | 0, pass, _, pos => .returned pass none pos
  | k + 1, pass, src, pos =>
    match randomElement chars src pos with
    | .panicked => .panicked
    | .returned _ (some err) p => .returned [] (some err) p
    | .returned b none p => generateLengthLoop chars k (pass ++ [b]) src p

/-- GenerateLength generates a password of a specified length using all
characters within the generators character set. -/
def Generator.GenerateLength (g : Generator) (length : Int)
    (src : Source) (pos : Nat) : Exec (List Byte) :=
  if length < 0 then .returned [] (some .ErrNegativeLength) pos
  else if length = 0 then .returned [] none pos
  else if g.chars.length = 0 then .returned [] (some .ErrLengthEmptyGenerator) pos
  else if length < 0 ∨ maxAlloc < length then .panicked
  else generateLengthLoop g.chars length.toNat [] src pos

/-- Generate is the package shortcut for Generator.Generate. -/
def Generate (numLower numUpper numDigits numSymbols : Int)
    (src : Source) (pos : Nat) : Exec (List Byte) :=
  defaultGenerator.Generate numLower numUpper numDigits numSymbols src pos

/-- GenerateLength is the package shortcut for Generator.GenerateLength. -/
def GenerateLength (length : Int) (src : Source) (pos : Nat) : Exec (List Byte) :=
  defaultGenerator.GenerateLength length src pos

/-- The source honours the contract of `rand.Int` on the draws `lo ≤ k < hi`:
asked with a positive bound it does not fail and delivers a number below it. -/
def Source.DeliversOn (src : Source) (lo hi : Nat) : Prop :=
  ∀ k, lo ≤ k → k < hi → ∀ max : Int, 0 < max →
    ∃ v, src k max = .value v ∧ 0 ≤ v ∧ v < max

/-- The number of bytes of `pw` that occur in the class string `cls`. -/
def classCount (cls pw : List Byte) : Nat := pw.countP (fun c => decide (c ∈ cls))

/-- The pool of a generator is the concatenation of its four class strings, as
`NewGenerator` builds it. -/
def Generator.WellFormed (g : Generator) : Prop :=
  g.chars = g.lowercase ++ g.uppercase ++ g.digits ++ g.symbols

/-- The bytes with the `n` consecutive codes `lo`, `lo + 1`, ... -/
def codeRange (lo n : Nat) : List Byte := (List.range n).map (fun i => Fin.ofNat (lo + i))

/-- A source that never fails: the `k`-th draw with bound `max` delivers `k % max`. -/
def cyclicSource : Source := fun k max => .value ((k : Int) % max)

/-- A source whose every draw fails. -/
def failingSource : Source := fun k _ => .fail k

/-- The slice that `randomlySwap` builds from `b` and `e` once the position `j`
has been drawn (`j ≤ len(b)`; for any other `j` the Go code panics and this
function is not used): `append(b, e)` when `j` is the end, and otherwise
`append(b, b[j])` with `e` written at index `j`. -/
def insertAt (b : List Byte) (e : Byte) (j : Nat) : List Byte :=
  if j = b.length then b ++ [e]
  else
    match b[j]? with
    | some x => (b ++ [x]).set j e
    | none => b ++ [e]

/-- Whatever the source delivers for a positive bound lies below that bound (the
contract of `rand.Int`); draws may still fail. -/
def Source.InRange (src : Source) : Prop :=
  ∀ k (max v : Int), 0 < max → src k max = .value v → 0 ≤ v ∧ v < max

/-- A source whose draw number `k` fails with the error `id`, while every other
draw with bound `max` delivers its own number modulo `max`. -/
def failAt (k id : Nat) : Source :=
  fun i max => if i = k then .fail id else .value ((i : Int) % max)

/-- A source that delivers the numbers of a list in order, whatever the bound,
and fails once the list is used up. -/
def listSource (vs : List Nat) : Source :=
  fun k _ => match vs[k]? with
    | some v => .value (v : Int)
    | none => .fail k

/-- The insertion step of `randomlySwap` applied to the bytes `es` in order,
starting from the slice `pass`; the positions are what the source delivers. -/
def insertAllFrom (src : Source) : List Byte → List Byte → Nat → Exec (List Byte)
  | [], pass, pos => .returned pass none pos
  | e :: es, pass, pos =>
    match randomlySwap pass e src pos with
    | .panicked => .panicked
    | .returned _ (some err) p => .returned [] (some err) p
    | .returned r none p => insertAllFrom src es r p

/-- The slice obtained from the empty slice by inserting `e_1 .. e_n` with
`randomlySwap` when the drawn positions are `j_1 .. j_n`. -/
def insertAll (es : List Byte) (js : List Nat) : Exec (List Byte) :=
  insertAllFrom (listSource js) es [] 0

/-- A position sequence `j_1 .. j_n` with `0 ≤ j_k ≤ k - 1` (the list is indexed
from 0, so the entry at index `k` is at most `k`). -/
def ValidPositions (js : List Nat) : Prop := ∀ k j : Nat, js[k]? = some j → j ≤ k

/-- All position sequences of length `n`. -/
def positionSeqs : Nat → List (List Nat)
  | 0 => [[]]
  | n + 1 => (positionSeqs n).flatMap (fun js => (List.range (n + 1)).map (fun j => js ++ [j]))

/-- The fold of `insertAt` over the bytes `es` and the positions `js`. -/
def insertSeq : List Byte → List Byte → List Nat → List Byte
  | pass, e :: es, j :: js => insertSeq (insertAt pass e j) es js
  | pass, _, _ => pass

/-! ## Arithmetic of Go's `int` -/

theorem wrapInt_eq_emod (x : Int) : wrapInt x = (x + 2 ^ 63) % 2 ^ 64 - 2 ^ 63 := by
  unfold wrapInt
  cases x with
  | ofNat n =>
    simp only
    split_ifs with h
    · simp only [Int.ofNat_eq_coe]
      omega
    · trivial
  | negSucc n =>
    simp only
    split_ifs with h
    · simp only [Int.negSucc_eq]
      omega
    · trivial

theorem wrapInt_of_inRange {x : Int} (h0 : 0 ≤ x) (h1 : x < 2 ^ 63) : wrapInt x = x := by
  rw [wrapInt_eq_emod]
  omega

theorem goAdd_of_inRange {a b : Int} (h0 : 0 ≤ a + b) (h1 : a + b < 2 ^ 63) :
    goAdd a b = a + b := wrapInt_of_inRange h0 h1

/-! ## The random source -/

theorem Source.DeliversOn.mono {src : Source} {lo hi lo2 hi2 : Nat}
    (h : src.DeliversOn lo hi) (h1 : lo ≤ lo2) (h2 : hi2 ≤ hi) : src.DeliversOn lo2 hi2 :=
  fun k hk1 hk2 max hmax => h k (by omega) (by omega) max hmax

theorem randomNumberN_value {max : Int} {src : Source} {pos : Nat} {v : Int}
    (hmax : 0 < max) (hv : src pos max = .value v) :
    randomNumberN max src pos = .returned v none (pos + 1) := by
  unfold randomNumberN
  rw [if_neg (by omega), hv]

theorem randomNumberN_err {max : Int} {src : Source} {pos p : Nat} {v : Int} {e : Error}
    (h : randomNumberN max src pos = .returned v (some e) p) : ∃ id, e = .entropy id := by
  unfold randomNumberN at h
  split_ifs at h
  split at h
  · injection h with _ he _
    injection he with he
    exact ⟨_, he.symm⟩
  · injection h with _ he _
    cases he

theorem randomElement_value {s : List Byte} {src : Source} {pos : Nat} {v : Int}
    (hv : src pos (s.length : Int) = .value v) (h0 : 0 ≤ v) (h1 : v < (s.length : Int)) :
    ∃ b, randomElement s src pos = .returned b none (pos + 1) ∧ s[v.toNat]? = some b := by
  have hlt : v.toNat < s.length := by omega
  refine ⟨s[v.toNat], ?_, List.getElem?_eq_getElem hlt⟩
  unfold randomElement
  rw [randomNumberN_value (by omega) hv]
  simp only
  rw [if_neg (by omega), List.getElem?_eq_getElem hlt]

theorem randomElement_err {s : List Byte} {src : Source} {pos p : Nat} {b : Byte} {e : Error}
    (h : randomElement s src pos = .returned b (some e) p) : ∃ id, e = .entropy id := by
  unfold randomElement at h
  split at h
  · cases h
  · rename_i heq
    injection h with _ he _
    injection he with he
    subst he
    exact randomNumberN_err heq
  · split_ifs at h
    split at h
    · injection h with _ he _
      cases he
    · cases h

/-! ## The insertion step -/

theorem set_append_perm (e : Byte) :
    ∀ (b : List Byte) (j : Nat) (x : Byte), b[j]? = some x →
      ((b ++ [x]).set j e).Perm (b ++ [e]) := by
  intro b
  induction b with
  | nil => intro j x h; simp at h
  | cons a t ih =>
    intro j x h
    cases j with
    | zero =>
      simp only [List.getElem?_cons_zero, Option.some.injEq] at h
      subst h
      simp only [List.cons_append, List.set_cons_zero]
      exact ((List.perm_append_singleton a t).cons e).trans
        ((List.Perm.swap a e t).trans ((List.perm_append_singleton e t).symm.cons a))
    | succ n =>
      simp only [List.getElem?_cons_succ] at h
      simp only [List.cons_append, List.set_cons_succ]
      exact (ih n x h).cons a

theorem randomlySwap_value {b : List Byte} {e : Byte} {src : Source} {pos : Nat} {j : Int}
    (hlen : (b.length : Int) + 1 < 2 ^ 63)
    (hv : src pos ((b.length : Int) + 1) = .value j) (h0 : 0 ≤ j) (h1 : j < (b.length : Int) + 1) :
    ∃ r, randomlySwap b e src pos = .returned r none (pos + 1) ∧ r.Perm (b ++ [e]) := by
  unfold randomlySwap randomNumber
  simp only
  rw [goAdd_of_inRange (by omega) hlen, randomNumberN_value (by omega) hv]
  simp only
  by_cases hj : j = (b.length : Int)
  · rw [if_pos hj]
    exact ⟨_, rfl, List.Perm.refl _⟩
  · rw [if_neg hj, if_neg (by omega)]
    have hlt : j.toNat < b.length := by omega
    rw [List.getElem?_eq_getElem hlt]
    exact ⟨_, rfl, set_append_perm e b j.toNat _ (List.getElem?_eq_getElem hlt)⟩

/-! ## The two loops -/

theorem generateLengthLoop_ok (chars : List Byte) (src : Source) (hne : chars ≠ []) :
    ∀ (k : Nat) (pass : List Byte) (pos : Nat), src.DeliversOn pos (pos + k) →
      ∃ l, generateLengthLoop chars k pass src pos = .returned (pass ++ l) none (pos + k) ∧
        l.length = k ∧ ∀ c ∈ l, c ∈ chars := by
  intro k
  induction k with
  | zero =>
    intro pass pos _
    exact ⟨[], by simp [generateLengthLoop], rfl, by simp⟩
  | succ k ih =>
    intro pass pos hsrc
    have hpos : 0 < chars.length := List.length_pos.mpr hne
    obtain ⟨v, hv, h0, h1⟩ := hsrc pos (le_refl _) (by omega) (chars.length : Int) (by omega)
    obtain ⟨b, hb, hget⟩ := randomElement_value hv h0 h1
    obtain ⟨l, hl, hlen, hmem⟩ := ih (pass ++ [b]) (pos + 1) (hsrc.mono (by omega) (by omega))
    refine ⟨b :: l, ?_, by simp [hlen], ?_⟩
    · unfold generateLengthLoop
      rw [hb]
      simp only
      rw [hl]
      simp [Nat.add_assoc, Nat.add_comm 1 k]
    · intro c hc
      rcases List.mem_cons.mp hc with rfl | hc
      · exact List.getElem?_mem hget
      · exact hmem c hc

theorem generateLengthLoop_err (chars : List Byte) (src : Source) :
    ∀ (k : Nat) (pass : List Byte) (pos p : Nat) (val : List Byte) (e : Error),
      generateLengthLoop chars k pass src pos = .returned val (some e) p →
      ∃ id, e = .entropy id := by
  intro k
  induction k with
  | zero =>
    intro pass pos p val e h
    simp [generateLengthLoop] at h
  | succ k ih =>
    intro pass pos p val e h
    unfold generateLengthLoop at h
    split at h
    · cases h
    · rename_i heq
      injection h with _ he _
      injection he with he
      subst he
      exact randomElement_err heq
    · exact ih _ _ _ _ _ h

theorem generateCharsetPermuteLoop_ok (charset : List Byte) (src : Source) :
    ∀ (k : Nat) (pass : List Byte) (pos : Nat), (0 < k → charset ≠ []) →
      ((pass.length : Int) + k < 2 ^ 63) → src.DeliversOn pos (pos + 2 * k) →
      ∃ pw l, generateCharsetPermuteLoop charset k pass src pos
          = .returned pw none (pos + 2 * k) ∧
        l.length = k ∧ (∀ c ∈ l, c ∈ charset) ∧ pw.Perm (pass ++ l) := by
  intro k
  induction k with
  | zero =>
    intro pass pos _ _ _
    exact ⟨pass, [], by simp [generateCharsetPermuteLoop], rfl, by simp, by simp⟩
  | succ k ih =>
    intro pass pos hne hlen hsrc
    have hne2 : charset ≠ [] := hne (by omega)
    have hpos : 0 < charset.length := List.length_pos.mpr hne2
    obtain ⟨v, hv, h0, h1⟩ := hsrc pos (le_refl _) (by omega) (charset.length : Int) (by omega)
    obtain ⟨b, hb, hget⟩ := randomElement_value hv h0 h1
    obtain ⟨j, hj, hj0, hj1⟩ := hsrc (pos + 1) (by omega) (by omega) ((pass.length : Int) + 1)
      (by omega)
    obtain ⟨r, hr, hperm⟩ := randomlySwap_value (e := b) (by push_cast at hlen; omega) hj hj0 hj1
    have hrlen : r.length = pass.length + 1 := by simpa using hperm.length_eq
    obtain ⟨pw, l, hl, hlen2, hmem, hp⟩ := ih r (pos + 1 + 1) (fun _ => hne2)
      (by rw [hrlen]; push_cast at hlen ⊢; omega) (hsrc.mono (by omega) (by omega))
    refine ⟨pw, b :: l, ?_, by simp [hlen2], ?_, ?_⟩
    · unfold generateCharsetPermuteLoop
      rw [hb]
      simp only
      rw [hr]
      simp only
      rw [hl]
      congr 1
      omega
    · intro c hc
      rcases List.mem_cons.mp hc with rfl | hc
      · exact List.getElem?_mem hget
      · exact hmem c hc
    · refine hp.trans ?_
      have : (r ++ l).Perm ((pass ++ [b]) ++ l) := hperm.append_right l
      simpa using this

theorem cyclicSource_delivers (lo hi : Nat) : cyclicSource.DeliversOn lo hi :=
  fun k _ _ max hmax =>
    ⟨(k : Int) % max, rfl, Int.emod_nonneg _ (by omega), Int.emod_lt_of_pos _ hmax⟩

theorem classCount_of_mem {cls l : List Byte} (h : ∀ c ∈ l, c ∈ cls) :
    classCount cls l = l.length := by
  unfold classCount
  rw [List.countP_eq_length]
  intro c hc
  simpa using h c hc

theorem classCount_of_disjoint {cls other l : List Byte} (hd : cls.Disjoint other)
    (h : ∀ c ∈ l, c ∈ other) : classCount cls l = 0 := by
  unfold classCount
  rw [List.countP_eq_zero]
  intro c hc
  simpa using fun hcls => hd hcls (h c hc)

theorem classCount_append (cls l₁ l₂ : List Byte) :
    classCount cls (l₁ ++ l₂) = classCount cls l₁ + classCount cls l₂ := by
  unfold classCount
  exact List.countP_append _ _ _

theorem classCount_perm (cls : List Byte) {l₁ l₂ : List Byte} (h : l₁.Perm l₂) :
    classCount cls l₁ = classCount cls l₂ := by
  unfold classCount
  exact h.countP_eq _

/-- C1 (as amended): for counts `≥ 0` whose sum is at most the allocation limit
`maxAlloc`, with every requested class non-empty and a source that delivers,
`Generate` returns a nil error and a rearrangement of `numLower` bytes of the lowercase string, `numUpper`
of the uppercase string, `numDigits` of the digits string and `numSymbols` of
the symbols string; its length is the sum of the counts and, for pairwise
disjoint classes, each class occurs exactly as often as requested. -/
theorem Generate_counts (g : Generator) (numLower numUpper numDigits numSymbols : Int)
    (src : Source) (pos : Nat)
    (hl : 0 ≤ numLower) (hu : 0 ≤ numUpper) (hd : 0 ≤ numDigits) (hs : 0 ≤ numSymbols)
    (hsum : numLower + numUpper + numDigits + numSymbols ≤ maxAlloc)
    (hal : 0 < numLower → g.lowercase ≠ []) (hau : 0 < numUpper → g.uppercase ≠ [])
    (had : 0 < numDigits → g.digits ≠ []) (has : 0 < numSymbols → g.symbols ≠ [])
    (hsrc : src.DeliversOn pos
      (pos + 2 * (numLower + numUpper + numDigits + numSymbols).toNat)) :
    ∃ pw l u d s,
      g.Generate numLower numUpper numDigits numSymbols src pos
        = .returned pw none (pos + 2 * (numLower + numUpper + numDigits + numSymbols).toNat) ∧
      pw.Perm (l ++ u ++ d ++ s) ∧
      (l.length : Int) = numLower ∧ (∀ c ∈ l, c ∈ g.lowercase) ∧
      (u.length : Int) = numUpper ∧ (∀ c ∈ u, c ∈ g.uppercase) ∧
      (d.length : Int) = numDigits ∧ (∀ c ∈ d, c ∈ g.digits) ∧
      (s.length : Int) = numSymbols ∧ (∀ c ∈ s, c ∈ g.symbols) ∧
      (pw.length : Int) = numLower + numUpper + numDigits + numSymbols ∧
      (g.lowercase.Disjoint g.uppercase → g.lowercase.Disjoint g.digits →
        g.lowercase.Disjoint g.symbols → g.uppercase.Disjoint g.digits →
        g.uppercase.Disjoint g.symbols → g.digits.Disjoint g.symbols →
        (classCount g.lowercase pw : Int) = numLower ∧
        (classCount g.uppercase pw : Int) = numUpper ∧
        (classCount g.digits pw : Int) = numDigits ∧
        (classCount g.symbols pw : Int) = numSymbols) := by
  have hmax : maxAlloc = 2 ^ 48 := rfl
  obtain ⟨pw1, l, h1, hl1, hm1, hp1⟩ := generateCharsetPermuteLoop_ok g.lowercase src
    numLower.toNat [] pos (fun h => hal (by omega)) (by simp only [List.length_nil]; omega)
    (hsrc.mono (le_refl _) (by omega))
  have hlen1 : pw1.length = numLower.toNat := by simpa [hl1] using hp1.length_eq
  obtain ⟨pw2, u, h2, hl2, hm2, hp2⟩ := generateCharsetPermuteLoop_ok g.uppercase src
    numUpper.toNat pw1 (pos + 2 * numLower.toNat) (fun h => hau (by omega))
    (by rw [hlen1]; omega) (hsrc.mono (by omega) (by omega))
  have hlen2 : pw2.length = numLower.toNat + numUpper.toNat := by
    simpa [hl2, hlen1] using hp2.length_eq
  obtain ⟨pw3, d, h3, hl3, hm3, hp3⟩ := generateCharsetPermuteLoop_ok g.digits src
    numDigits.toNat pw2 (pos + 2 * numLower.toNat + 2 * numUpper.toNat)
    (fun h => had (by omega)) (by rw [hlen2]; omega) (hsrc.mono (by omega) (by omega))
  have hlen3 : pw3.length = numLower.toNat + numUpper.toNat + numDigits.toNat := by
    simpa [hl3, hlen2] using hp3.length_eq
  obtain ⟨pw4, s, h4, hl4, hm4, hp4⟩ := generateCharsetPermuteLoop_ok g.symbols src
    numSymbols.toNat pw3 (pos + 2 * numLower.toNat + 2 * numUpper.toNat + 2 * numDigits.toNat)
    (fun h => has (by omega)) (by rw [hlen3]; omega) (hsrc.mono (by omega) (by omega))
  have hlen4 : pw4.length
      = numLower.toNat + numUpper.toNat + numDigits.toNat + numSymbols.toNat := by
    simpa [hl4, hlen3] using hp4.length_eq
  have hperm : pw4.Perm (l ++ u ++ d ++ s) :=
    hp4.trans (((hp3.trans ((hp2.trans ((by simpa using hp1 : pw1.Perm l).append_right u)
      ).append_right d))).append_right s)
  have hcode : g.Generate numLower numUpper numDigits numSymbols src pos
      = .returned pw4 none (pos + 2 * (numLower + numUpper + numDigits + numSymbols).toNat) := by
    unfold Generator.Generate
    rw [if_neg (by omega), if_neg (fun h => hal h.1 (List.length_eq_zero.mp h.2)),
      if_neg (fun h => hau h.1 (List.length_eq_zero.mp h.2)),
      if_neg (fun h => had h.1 (List.length_eq_zero.mp h.2)),
      if_neg (fun h => has h.1 (List.length_eq_zero.mp h.2))]
    simp only
    rw [goAdd_of_inRange (a := numLower) (b := numUpper) (by omega) (by omega),
      goAdd_of_inRange (a := numLower + numUpper) (b := numDigits) (by omega) (by omega),
      goAdd_of_inRange (a := numLower + numUpper + numDigits) (b := numSymbols) (by omega)
        (by omega)]
    by_cases h0 : numLower + numUpper + numDigits + numSymbols = 0
    · rw [if_pos h0]
      have e1 : numLower.toNat = 0 := by omega
      have e2 : numUpper.toNat = 0 := by omega
      have e3 : numDigits.toNat = 0 := by omega
      have e4 : numSymbols.toNat = 0 := by omega
      have hnil : pw4 = [] := List.length_eq_zero.mp (by omega)
      rw [hnil, h0]
      rfl
    · rw [if_neg h0, if_neg (by omega)]
      unfold generateCharsetPermute
      rw [h1]
      simp only
      rw [h2]
      simp only
      rw [h3]
      simp only
      rw [h4]
      simp only
      congr 1
      omega
  refine ⟨pw4, l, u, d, s, hcode, hperm, by omega, hm1, by omega, hm2, by omega, hm3,
    by omega, hm4, by omega, ?_⟩
  intro dlu dld dls dud dus dds
  have hcnt (cls : List Byte) : classCount cls pw4
      = classCount cls l + classCount cls u + classCount cls d + classCount cls s := by
    rw [classCount_perm cls hperm, classCount_append, classCount_append, classCount_append]
  refine ⟨?_, ?_, ?_, ?_⟩
  · rw [hcnt, classCount_of_mem hm1, classCount_of_disjoint dlu hm2,
      classCount_of_disjoint dld hm3, classCount_of_disjoint dls hm4]
    omega
  · rw [hcnt, classCount_of_disjoint dlu.symm hm1, classCount_of_mem hm2,
      classCount_of_disjoint dud hm3, classCount_of_disjoint dus hm4]
    omega
  · rw [hcnt, classCount_of_disjoint dld.symm hm1, classCount_of_disjoint dud.symm hm2,
      classCount_of_mem hm3, classCount_of_disjoint dds hm4]
    omega
  · rw [hcnt, classCount_of_disjoint dls.symm hm1, classCount_of_disjoint dus.symm hm2,
      classCount_of_disjoint dds.symm hm3, classCount_of_mem hm4]
    omega

/-- C1, witness: the default generator asked for 2 lowercase, 1 uppercase,
1 digit and 1 symbol from the cyclic source. -/
theorem Generate_counts_witness :
    (0 : Int) ≤ 2 ∧ (0 : Int) ≤ 1 ∧ ((2 : Int) + 1 + 1 + 1 ≤ maxAlloc) ∧
    cyclicSource.DeliversOn 0 (0 + 2 * ((2 : Int) + 1 + 1 + 1).toNat) ∧
    ∃ pw l u d s,
      (NewGenerator none).Generate 2 1 1 1 cyclicSource 0
        = .returned pw none (0 + 2 * ((2 : Int) + 1 + 1 + 1).toNat) ∧
      pw.Perm (l ++ u ++ d ++ s) ∧
      (l.length : Int) = 2 ∧ (∀ c ∈ l, c ∈ (NewGenerator none).lowercase) ∧
      (u.length : Int) = 1 ∧ (∀ c ∈ u, c ∈ (NewGenerator none).uppercase) ∧
      (d.length : Int) = 1 ∧ (∀ c ∈ d, c ∈ (NewGenerator none).digits) ∧
      (s.length : Int) = 1 ∧ (∀ c ∈ s, c ∈ (NewGenerator none).symbols) ∧
      (pw.length : Int) = 2 + 1 + 1 + 1 ∧
      ((NewGenerator none).lowercase.Disjoint (NewGenerator none).uppercase →
        (NewGenerator none).lowercase.Disjoint (NewGenerator none).digits →
        (NewGenerator none).lowercase.Disjoint (NewGenerator none).symbols →
        (NewGenerator none).uppercase.Disjoint (NewGenerator none).digits →
        (NewGenerator none).uppercase.Disjoint (NewGenerator none).symbols →
        (NewGenerator none).digits.Disjoint (NewGenerator none).symbols →
        (classCount (NewGenerator none).lowercase pw : Int) = 2 ∧
        (classCount (NewGenerator none).uppercase pw : Int) = 1 ∧
        (classCount (NewGenerator none).digits pw : Int) = 1 ∧
        (classCount (NewGenerator none).symbols pw : Int) = 1) :=
  ⟨by decide, by decide, by decide, cyclicSource_delivers _ _,
    Generate_counts (NewGenerator none) 2 1 1 1 cyclicSource 0 (by decide) (by decide)
      (by decide) (by decide) (by decide) (fun _ => by decide) (fun _ => by decide)
      (fun _ => by decide) (fun _ => by decide) (cyclicSource_delivers _ _)⟩

/-- C1, counterexample: every hypothesis of the claim holds for the default
generator with `2^48 + 1` lowercase characters requested, and with `2^62`
characters requested of each class.  In the first call the capacity `2^48 + 1`
exceeds the allocation limit and `Generate` panics in `make`, before any draw,
so it returns nothing.  In the second the sum wraps to `0` in Go's `int` and
`Generate` returns the empty password with a nil error and no draw, which is
not a password of `2^64` bytes. -/
theorem Generate_overflow_counterexample :
    ((0 : Int) ≤ 2 ^ 48 + 1) ∧ ((0 : Int) ≤ 2 ^ 62) ∧
    (NewGenerator none).lowercase ≠ [] ∧ (NewGenerator none).uppercase ≠ [] ∧
    (NewGenerator none).digits ≠ [] ∧ (NewGenerator none).symbols ≠ [] ∧
    cyclicSource.DeliversOn 0 (0 + 2 * ((2 : Int) ^ 48 + 1 + 0 + 0 + 0).toNat) ∧
    (NewGenerator none).Generate (2 ^ 48 + 1) 0 0 0 cyclicSource 0 = .panicked ∧
    (¬ ∃ pw err p, (NewGenerator none).Generate (2 ^ 48 + 1) 0 0 0 cyclicSource 0
        = .returned pw err p) ∧
    cyclicSource.DeliversOn 0 (0 + 2 * ((2 : Int) ^ 62 + 2 ^ 62 + 2 ^ 62 + 2 ^ 62).toNat) ∧
    (NewGenerator none).Generate (2 ^ 62) (2 ^ 62) (2 ^ 62) (2 ^ 62) cyclicSource 0
      = .returned [] none 0 ∧
    ¬ ∃ pw p, (NewGenerator none).Generate (2 ^ 62) (2 ^ 62) (2 ^ 62) (2 ^ 62) cyclicSource 0
        = .returned pw none p ∧
      (pw.length : Int) = 2 ^ 62 + 2 ^ 62 + 2 ^ 62 + 2 ^ 62 := by
  have hpanic : (NewGenerator none).Generate (2 ^ 48 + 1) 0 0 0 cyclicSource 0
      = .panicked := by decide
  have hrun : (NewGenerator none).Generate (2 ^ 62) (2 ^ 62) (2 ^ 62) (2 ^ 62) cyclicSource 0
      = .returned [] none 0 := by decide
  refine ⟨by decide, by decide, by decide, by decide, by decide, by decide,
    cyclicSource_delivers _ _, hpanic, ?_, cyclicSource_delivers _ _, hrun, ?_⟩
  · rintro ⟨pw, err, p, heq⟩
    rw [hpanic] at heq
    cases heq
  · rintro ⟨pw, p, heq, hlen⟩
    rw [hrun] at heq
    injection heq with hpw _ _
    subst hpw
    revert hlen
    decide

/-- C2: when at least one of the four counts is negative, `Generate` returns the
empty string with `ErrNegativeCharNum`, for every generator and whatever the
other counts are, and makes no draw (the draw counter is unchanged). -/
theorem Generate_negative (g : Generator) (numLower numUpper numDigits numSymbols : Int)
    (src : Source) (pos : Nat)
    (hneg : numLower < 0 ∨ numUpper < 0 ∨ numDigits < 0 ∨ numSymbols < 0) :
    g.Generate numLower numUpper numDigits numSymbols src pos
      = .returned [] (some .ErrNegativeCharNum) pos := by
  unfold Generator.Generate
  rw [if_pos hneg]

/-- C2, witness: a generator with four empty classes, one negative count and a
positive count for an empty class. -/
theorem Generate_negative_witness :
    ((-1 : Int) < 0 ∨ (5 : Int) < 0 ∨ (0 : Int) < 0 ∨ (0 : Int) < 0) ∧
    (NewGenerator (some ⟨[], [], [], []⟩)).Generate (-1) 5 0 0 failingSource 3
      = .returned [] (some .ErrNegativeCharNum) 3 :=
  ⟨by decide, Generate_negative _ (-1) 5 0 0 failingSource 3 (by decide)⟩

/-- C3: with all counts `≥ 0`, if some class (any of the four) has a positive
count while its string in the generator is empty, `Generate` returns the empty
string with `ErrTypeExceedsAvailable`. -/
theorem Generate_class_unavailable (g : Generator)
    (numLower numUpper numDigits numSymbols : Int) (src : Source) (pos : Nat)
    (hl : 0 ≤ numLower) (hu : 0 ≤ numUpper) (hd : 0 ≤ numDigits) (hs : 0 ≤ numSymbols)
    (hempty : (0 < numLower ∧ g.lowercase = []) ∨ (0 < numUpper ∧ g.uppercase = []) ∨
      (0 < numDigits ∧ g.digits = []) ∨ (0 < numSymbols ∧ g.symbols = [])) :
    g.Generate numLower numUpper numDigits numSymbols src pos
      = .returned [] (some .ErrTypeExceedsAvailable) pos := by
  unfold Generator.Generate
  rw [if_neg (by omega)]
  simp only [List.length_eq_zero, gt_iff_lt]
  split_ifs <;> first | rfl | (exfalso; tauto)

/-- C3, witness: symbols requested from a generator built without symbols. -/
theorem Generate_class_unavailable_witness :
    (NewGenerator (some ⟨Lowercase, Uppercase, Digits, []⟩)).Generate 1 1 1 1 cyclicSource 0
      = .returned [] (some .ErrTypeExceedsAvailable) 0 :=
  Generate_class_unavailable _ 1 1 1 1 cyclicSource 0 (by decide) (by decide) (by decide)
    (by decide) (Or.inr (Or.inr (Or.inr ⟨by decide, rfl⟩)))

/-- C4: `Generate(0, 0, 0, 0)` returns the empty string and a nil error for every
generator (its classes may all be empty) and every source, without a draw. -/
theorem Generate_zero (g : Generator) (src : Source) (pos : Nat) :
    g.Generate 0 0 0 0 src pos = .returned [] none pos := by
  unfold Generator.Generate
  simp [goAdd, wrapInt_eq_emod]

/-- C5 (as amended): for a generator with a non-empty pool, a length `≥ 0` that
is at most the allocation limit `maxAlloc`, and a source that delivers,
`GenerateLength` returns a nil error and a password of exactly `length` bytes,
each of which occurs in the pool `chars`. -/
theorem GenerateLength_ok (g : Generator) (length : Int) (src : Source) (pos : Nat)
    (hpool : g.chars ≠ []) (hlen : 0 ≤ length) (hcap : length ≤ maxAlloc)
    (hsrc : src.DeliversOn pos (pos + length.toNat)) :
    ∃ pw, g.GenerateLength length src pos = .returned pw none (pos + length.toNat) ∧
      (pw.length : Int) = length ∧ ∀ c ∈ pw, c ∈ g.chars := by
  unfold Generator.GenerateLength
  rw [if_neg (by omega)]
  by_cases h0 : length = 0
  · subst h0
    exact ⟨[], by simp, by simp, by simp⟩
  · rw [if_neg h0, if_neg (by simpa using hpool), if_neg (by omega)]
    obtain ⟨l, hl, hlen2, hmem⟩ :=
      generateLengthLoop_ok g.chars src hpool length.toNat [] pos hsrc
    exact ⟨l, by simpa using hl, by omega, hmem⟩

/-- C5, witness: ten bytes from the default generator. -/
theorem GenerateLength_ok_witness :
    (NewGenerator none).chars ≠ [] ∧ (0 : Int) ≤ 10 ∧ (10 : Int) ≤ maxAlloc ∧
    cyclicSource.DeliversOn 0 (0 + (10 : Int).toNat) ∧
    ∃ pw, (NewGenerator none).GenerateLength 10 cyclicSource 0
        = .returned pw none (0 + (10 : Int).toNat) ∧
      (pw.length : Int) = 10 ∧ ∀ c ∈ pw, c ∈ (NewGenerator none).chars :=
  ⟨by decide, by decide, by decide, cyclicSource_delivers _ _,
    GenerateLength_ok (NewGenerator none) 10 cyclicSource 0 (by decide) (by decide)
      (by decide) (cyclicSource_delivers _ _)⟩

/-- C5, counterexample: the default generator has a non-empty pool, the length
`2^48 + 1` is `≥ 0` and the cyclic source delivers every draw, yet
`GenerateLength(2^48 + 1)` panics in `make`, whose capacity exceeds the
allocation limit, before any draw: it returns no password and no error. -/
theorem GenerateLength_alloc_counterexample :
    (NewGenerator none).chars ≠ [] ∧ ((0 : Int) ≤ 2 ^ 48 + 1) ∧
    cyclicSource.DeliversOn 0 (0 + ((2 : Int) ^ 48 + 1).toNat) ∧
    (NewGenerator none).GenerateLength (2 ^ 48 + 1) cyclicSource 0 = .panicked ∧
    ¬ ∃ pw err p, (NewGenerator none).GenerateLength (2 ^ 48 + 1) cyclicSource 0
        = .returned pw err p := by
  have hpanic : (NewGenerator none).GenerateLength (2 ^ 48 + 1) cyclicSource 0
      = .panicked := by decide
  refine ⟨by decide, by decide, cyclicSource_delivers _ _, hpanic, ?_⟩
  rintro ⟨pw, err, p, heq⟩
  rw [hpanic] at heq
  cases heq

/-- C6: for a negative length `GenerateLength` returns the empty string with
`ErrNegativeLength`, for every generator: the check comes before the one on the
pool, so an empty pool makes no difference. -/
theorem GenerateLength_negative (g : Generator) (length : Int) (src : Source) (pos : Nat)
    (hneg : length < 0) :
    g.GenerateLength length src pos = .returned [] (some .ErrNegativeLength) pos := by
  unfold Generator.GenerateLength
  rw [if_pos hneg]

/-- C6, witness: length `-1` on a generator whose pool is empty. -/
theorem GenerateLength_negative_witness :
    (NewGenerator (some ⟨[], [], [], []⟩)).chars = [] ∧
    (NewGenerator (some ⟨[], [], [], []⟩)).GenerateLength (-1) cyclicSource 0
      = .returned [] (some .ErrNegativeLength) 0 :=
  ⟨rfl, GenerateLength_negative _ (-1) cyclicSource 0 (by decide)⟩

/-- C7: a generator whose four class strings are empty (its pool, their
concatenation, is then empty) answers every positive length with the empty
string and `ErrLengthEmptyGenerator`; and whenever `GenerateLength` returns
`ErrLengthEmptyGenerator`, the length is positive and the pool is empty. -/
theorem GenerateLength_empty_pool (g : Generator) (length : Int) (src : Source) (pos : Nat) :
    (g.WellFormed → g.lowercase = [] → g.uppercase = [] → g.digits = [] → g.symbols = [] →
      0 < length →
      g.GenerateLength length src pos = .returned [] (some .ErrLengthEmptyGenerator) pos) ∧
    (∀ val p, g.GenerateLength length src pos
        = .returned val (some .ErrLengthEmptyGenerator) p →
      0 < length ∧ g.chars = []) := by
  constructor
  · intro hwf h1 h2 h3 h4 hlen
    have hc : g.chars = [] := by rw [hwf, h1, h2, h3, h4]; rfl
    unfold Generator.GenerateLength
    rw [if_neg (by omega), if_neg (by omega), if_pos (by simp [hc])]
  · intro val p h
    unfold Generator.GenerateLength at h
    split_ifs at h with h1 h2 h3
    · injection h with _ he _
      cases he
    · injection h with _ he _
      cases he
    · exact ⟨by omega, List.length_eq_zero.mp h3⟩
    · obtain ⟨id, hid⟩ := generateLengthLoop_err _ _ _ _ _ _ _ _ h
      cases hid

/-- C7, witness: length 5 on the generator built from the empty character set. -/
theorem GenerateLength_empty_pool_witness :
    (NewGenerator (some ⟨[], [], [], []⟩)).GenerateLength 5 cyclicSource 0
      = .returned [] (some .ErrLengthEmptyGenerator) 0 ∧
    ((0 : Int) < 5 ∧ (NewGenerator (some ⟨[], [], [], []⟩)).chars = []) :=
  ⟨(GenerateLength_empty_pool (NewGenerator (some ⟨[], [], [], []⟩)) 5 cyclicSource 0).1
      rfl rfl rfl rfl rfl (by decide),
    (GenerateLength_empty_pool (NewGenerator (some ⟨[], [], [], []⟩)) 5 cyclicSource 0).2
      [] 0 (by decide)⟩

/-- C8: `GenerateLength(0)` returns the empty string and a nil error for every
generator, an empty pool included, and every source, without a draw. -/
theorem GenerateLength_zero (g : Generator) (src : Source) (pos : Nat) :
    g.GenerateLength 0 src pos = .returned [] none pos := by
  unfold Generator.GenerateLength
  simp

/-- C9: `NewGenerator(nil)` holds the four package constants; for a non-nil
character set the four class strings are its fields, field for field (an empty
field stays empty); in both cases `chars` is the concatenation
lowercase + uppercase + digits + symbols of the generator's own strings. -/
theorem NewGenerator_spec :
    NewGenerator none =
      { lowercase := Lowercase, uppercase := Uppercase, digits := Digits, symbols := Symbols,
        chars := Lowercase ++ Uppercase ++ Digits ++ Symbols } ∧
    (∀ c : CharSet, NewGenerator (some c) =
      { lowercase := c.Lowercase, uppercase := c.Uppercase, digits := c.Digits,
        symbols := c.Symbols,
        chars := c.Lowercase ++ c.Uppercase ++ c.Digits ++ c.Symbols }) ∧
    (NewGenerator (some ⟨[], [], [], []⟩)).digits = [] ∧
    (∀ c : Option CharSet, (NewGenerator c).WellFormed) :=
  ⟨rfl, fun _ => rfl, rfl, fun _ => rfl⟩

/-- C10: the default classes are the 26 lowercase letters (codes 97-122), the
26 uppercase letters (65-90), the 10 digits (48-57) and the 32 punctuation
characters with codes 33-47, 58-64, 91-96 and 123-126, each once; they are
pairwise disjoint and the default pool has 94 pairwise distinct bytes. -/
theorem default_classes :
    Lowercase = codeRange 97 26 ∧ Uppercase = codeRange 65 26 ∧ Digits = codeRange 48 10 ∧
    Symbols = codeRange 33 15 ++ codeRange 58 7 ++ codeRange 91 6 ++ codeRange 123 4 ∧
    Symbols.length = 32 ∧ Symbols.Nodup ∧
    Lowercase.Disjoint Uppercase ∧ Lowercase.Disjoint Digits ∧ Lowercase.Disjoint Symbols ∧
    Uppercase.Disjoint Digits ∧ Uppercase.Disjoint Symbols ∧ Digits.Disjoint Symbols ∧
    (NewGenerator none).chars.length = 94 ∧ (NewGenerator none).chars.Nodup := by
  have hn : (NewGenerator none).chars.Nodup := by decide
  have hn2 : (Lowercase ++ Uppercase ++ Digits ++ Symbols).Nodup := hn
  refine ⟨by decide, by decide, by decide, by decide, by decide, by decide,
    ?_, ?_, ?_, ?_, ?_, ?_, by decide, hn⟩
  all_goals
    simp only [List.nodup_append, List.disjoint_append_left, List.disjoint_append_right] at hn2
    tauto

/-! ## The insertion step as a function of the drawn position -/

theorem insertAt_end (b : List Byte) (e : Byte) : insertAt b e b.length = b ++ [e] := by
  unfold insertAt
  rw [if_pos rfl]

theorem insertAt_split (pre post : List Byte) (x e : Byte) :
    insertAt (pre ++ x :: post) e pre.length = pre ++ e :: (post ++ [x]) := by
  have hget : (pre ++ x :: post)[pre.length]? = some x := by
    rw [List.getElem?_append_right (le_refl _)]
    simp
  unfold insertAt
  rw [if_neg (by simp), hget]
  simp

theorem insertAt_perm (b : List Byte) (e : Byte) (j : Nat) (hj : j ≤ b.length) :
    (insertAt b e j).Perm (b ++ [e]) := by
  unfold insertAt
  by_cases h : j = b.length
  · rw [if_pos h]
  · rw [if_neg h]
    have hlt : j < b.length := by omega
    rw [List.getElem?_eq_getElem hlt]
    exact set_append_perm e b j _ (List.getElem?_eq_getElem hlt)

theorem insertAt_length (b : List Byte) (e : Byte) (j : Nat) (hj : j ≤ b.length) :
    (insertAt b e j).length = b.length + 1 := by
  simpa using (insertAt_perm b e j hj).length_eq

theorem randomlySwap_eq_insertAt {b : List Byte} {e : Byte} {src : Source} {pos : Nat}
    {j : Int} (hlen : (b.length : Int) + 1 < 2 ^ 63)
    (hv : src pos ((b.length : Int) + 1) = .value j) (h0 : 0 ≤ j) (h1 : j ≤ (b.length : Int)) :
    randomlySwap b e src pos = .returned (insertAt b e j.toNat) none (pos + 1) := by
  unfold randomlySwap randomNumber insertAt
  simp only
  rw [goAdd_of_inRange (by omega) hlen, randomNumberN_value (by omega) hv]
  simp only
  by_cases hj : j = (b.length : Int)
  · rw [if_pos hj, if_pos (by omega)]
  · rw [if_neg hj, if_neg (by omega), if_neg (by omega)]
    have hlt : j.toNat < b.length := by omega
    rw [List.getElem?_eq_getElem hlt]

/-- C13: the package-level `Generate` and `GenerateLength` return, for all
arguments and every source, what the methods of `NewGenerator(nil)` return. -/
theorem package_functions_delegate (numLower numUpper numDigits numSymbols length : Int)
    (src : Source) (pos : Nat) :
    Generate numLower numUpper numDigits numSymbols src pos
      = (NewGenerator none).Generate numLower numUpper numDigits numSymbols src pos ∧
    GenerateLength length src pos = (NewGenerator none).GenerateLength length src pos :=
  ⟨rfl, rfl⟩

/-- C15 (as amended): for `0 ≤ max ≤ 2^63 - 2`, `randomNumber(max)` returns what
`randomNumberN(max + 1)` returns; when the source delivers `v` in `[0, max + 1)`
the result is `v`, with `0 ≤ v ≤ max`; and `max` itself is a possible result. -/
theorem randomNumber_spec (max : Int) (src : Source) (pos : Nat)
    (h0 : 0 ≤ max) (h1 : max < 2 ^ 63 - 1) :
    randomNumber max src pos = randomNumberN (max + 1) src pos ∧
    (∀ v, src pos (max + 1) = .value v → 0 ≤ v → v < max + 1 →
      randomNumber max src pos = .returned v none (pos + 1) ∧ 0 ≤ v ∧ v ≤ max) ∧
    randomNumber max (fun _ _ => .value max) pos = .returned max none (pos + 1) := by
  have hg : goAdd max 1 = max + 1 := goAdd_of_inRange (by omega) (by omega)
  refine ⟨by unfold randomNumber; rw [hg], ?_, ?_⟩
  · intro v hv hv0 hv1
    refine ⟨?_, hv0, by omega⟩
    unfold randomNumber
    rw [hg, randomNumberN_value (by omega) hv]
  · unfold randomNumber
    rw [hg, randomNumberN_value (by omega) rfl]

/-- C15, witness: `max = 9` with a source that delivers 4. -/
theorem randomNumber_spec_witness :
    randomNumber 9 (fun _ _ => .value 4) 0 = randomNumberN (9 + 1) (fun _ _ => .value 4) 0 ∧
    (∀ v, (fun (_ : Nat) (_ : Int) => Draw.value 4) 0 ((9 : Int) + 1) = .value v → 0 ≤ v →
      v < (9 : Int) + 1 →
      randomNumber 9 (fun _ _ => .value 4) 0 = .returned v none (0 + 1) ∧ 0 ≤ v ∧ v ≤ 9) ∧
    randomNumber 9 (fun _ _ => .value 9) 0 = .returned 9 none (0 + 1) :=
  randomNumber_spec 9 (fun _ _ => .value 4) 0 (by decide) (by decide)

/-- C15, counterexample: for `max = 2^63 - 1` the bound `max + 1` wraps to
`-2^63` and `randomNumber` panics, even with a source that would deliver `max`:
`max` is not a possible result. -/
theorem randomNumber_maxInt_counterexample :
    (0 : Int) ≤ 2 ^ 63 - 1 ∧
    goAdd (2 ^ 63 - 1) 1 = -2 ^ 63 ∧
    randomNumber (2 ^ 63 - 1) (fun _ _ => .value (2 ^ 63 - 1)) 0 = .panicked ∧
    randomNumber (2 ^ 63 - 1) (fun _ _ => .value (2 ^ 63 - 1)) 0
      ≠ .returned (2 ^ 63 - 1) none 1 := by
  refine ⟨by decide, by decide, by decide, by decide⟩

/-- C20: for a string `s` (non-empty, since an index below its length exists)
and a draw that delivers `i` with `0 ≤ i < len(s)`, `randomElement(s)` returns a
nil error and the byte `s[i]`, which occurs in `s`. -/
theorem randomElement_spec (s : List Byte) (src : Source) (pos : Nat) (i : Int)
    (hv : src pos (s.length : Int) = .value i)
    (h0 : 0 ≤ i) (h1 : i < (s.length : Int)) :
    ∃ b, randomElement s src pos = .returned b none (pos + 1) ∧
      s[i.toNat]? = some b ∧ b ∈ s := by
  obtain ⟨b, hb, hget⟩ := randomElement_value hv h0 h1
  exact ⟨b, hb, hget, List.getElem?_mem hget⟩

/-- C20, witness: the string "abc" and the delivered index 2. -/
theorem randomElement_spec_witness :
    ∃ b, randomElement (asciiBytes "abc") (fun _ _ => .value 2) 0 = .returned b none (0 + 1) ∧
      (asciiBytes "abc")[(2 : Int).toNat]? = some b ∧ b ∈ asciiBytes "abc" :=
  randomElement_spec (asciiBytes "abc") (fun _ _ => .value 2) 0 2 rfl
    (by decide) (by decide)

/-- C16: for a slice `b` (a Go slice has fewer than `2^63 - 1` elements), a
byte `e` and a drawn position `0 ≤ j ≤ len(b)`, `randomlySwap` returns `r` of
length `len(b) + 1` with `r[j] = e`, a permutation of `b` followed by `e`; if
`j = len(b)` then `r = b ++ [e]`, otherwise `r` agrees with `b` at every index
other than `j` and its last element is the displaced `b[j]`. -/
theorem randomlySwap_spec (b : List Byte) (e : Byte) (src : Source) (pos : Nat) (j : Int)
    (hb : (b.length : Int) < 2 ^ 63 - 1)
    (hv : src pos ((b.length : Int) + 1) = .value j) (h0 : 0 ≤ j) (h1 : j ≤ (b.length : Int)) :
    ∃ r, randomlySwap b e src pos = .returned r none (pos + 1) ∧
      r.length = b.length + 1 ∧ r[j.toNat]? = some e ∧ r.Perm (b ++ [e]) ∧
      (j = (b.length : Int) → r = b ++ [e]) ∧
      (j < (b.length : Int) →
        (∀ i, i < b.length → i ≠ j.toNat → r[i]? = b[i]?) ∧ r[b.length]? = b[j.toNat]?) := by
  have hjn : j.toNat ≤ b.length := by omega
  refine ⟨insertAt b e j.toNat, randomlySwap_eq_insertAt (by omega) hv h0 h1,
    insertAt_length b e _ hjn, ?_, insertAt_perm b e _ hjn, ?_, ?_⟩
  · by_cases hj : j.toNat = b.length
    · rw [hj, insertAt_end]
      simp
    · have hlt : j.toNat < b.length := by omega
      unfold insertAt
      rw [if_neg hj, List.getElem?_eq_getElem hlt]
      simp only
      rw [List.getElem?_set_self (by simp; omega)]
  · intro hj
    have : j.toNat = b.length := by omega
    rw [this, insertAt_end]
  · intro hj
    have hlt : j.toNat < b.length := by omega
    unfold insertAt
    rw [if_neg (by omega), List.getElem?_eq_getElem hlt]
    simp only
    constructor
    · intro i hi hij
      rw [List.getElem?_set_ne (fun h => hij h.symm), List.getElem?_append_left hi]
    · rw [List.getElem?_set_ne (by omega), List.getElem?_append_right (le_refl _)]
      simp

/-- C16, witness: inserting `9` into `[1, 2, 3]` at the drawn position 1. -/
theorem randomlySwap_spec_witness :
    ∃ r, randomlySwap [1, 2, 3] 9 (fun _ _ => .value 1) 0 = .returned r none (0 + 1) ∧
      r.length = ([1, 2, 3] : List Byte).length + 1 ∧ r[(1 : Int).toNat]? = some 9 ∧
      r.Perm ([1, 2, 3] ++ [9]) ∧
      ((1 : Int) = (([1, 2, 3] : List Byte).length : Int) → r = [1, 2, 3] ++ [9]) ∧
      ((1 : Int) < (([1, 2, 3] : List Byte).length : Int) →
        (∀ i, i < ([1, 2, 3] : List Byte).length → i ≠ (1 : Int).toNat →
          r[i]? = ([1, 2, 3] : List Byte)[i]?) ∧
        r[([1, 2, 3] : List Byte).length]? = ([1, 2, 3] : List Byte)[(1 : Int).toNat]?) :=
  randomlySwap_spec [1, 2, 3] 9 (fun _ _ => .value 1) 0 1 (by decide) rfl (by decide)
    (by decide)

/-! ## Failing draws, and runs under an arbitrary source -/

theorem cyclicSource_inRange : cyclicSource.InRange := by
  intro k max v hm h
  unfold cyclicSource at h
  injection h with h
  subst h
  exact ⟨Int.emod_nonneg _ (by omega), Int.emod_lt_of_pos _ hm⟩

theorem randomNumberN_fail {max : Int} {src : Source} {pos id : Nat}
    (hmax : 0 < max) (hv : src pos max = .fail id) :
    randomNumberN max src pos = .returned 0 (some (.entropy id)) (pos + 1) := by
  unfold randomNumberN
  rw [if_neg (by omega), hv]

theorem randomElement_fail {s : List Byte} {src : Source} {pos id : Nat}
    (hne : s ≠ []) (hv : src pos (s.length : Int) = .fail id) :
    randomElement s src pos = .returned 0 (some (.entropy id)) (pos + 1) := by
  have hpos : 0 < s.length := List.length_pos.mpr hne
  unfold randomElement
  rw [randomNumberN_fail (by omega) hv]

theorem randomlySwap_fail {b : List Byte} {e : Byte} {src : Source} {pos id : Nat}
    (hlen : (b.length : Int) + 1 < 2 ^ 63)
    (hv : src pos ((b.length : Int) + 1) = .fail id) :
    randomlySwap b e src pos = .returned [] (some (.entropy id)) (pos + 1) := by
  unfold randomlySwap randomNumber
  simp only
  rw [goAdd_of_inRange (by omega) hlen, randomNumberN_fail (by omega) hv]

theorem randomlySwap_length {b : List Byte} {e : Byte} {src : Source} {pos p : Nat}
    {r : List Byte} (h : randomlySwap b e src pos = .returned r none p) :
    r.length = b.length + 1 := by
  unfold randomlySwap at h
  simp only at h
  split at h
  · cases h
  · injection h with _ he _
    cases he
  · split_ifs at h
    · injection h with hr _ _
      subst hr
      simp
    · split at h
      · injection h with hr _ _
        subst hr
        simp
      · cases h

theorem generateCharsetPermuteLoop_length (charset : List Byte) (src : Source) :
    ∀ (k : Nat) (pass : List Byte) (pos p : Nat) (val : List Byte),
      generateCharsetPermuteLoop charset k pass src pos = .returned val none p →
      val.length = pass.length + k := by
  intro k
  induction k with
  | zero =>
    intro pass pos p val h
    unfold generateCharsetPermuteLoop at h
    injection h with hv _ _
    subst hv
    rfl
  | succ k ih =>
    intro pass pos p val h
    unfold generateCharsetPermuteLoop at h
    split at h
    · cases h
    · injection h with _ he _
      cases he
    · split at h
      · cases h
      · injection h with _ he _
        cases he
      · rename_i hswap
        rw [ih _ _ _ _ h, randomlySwap_length hswap]
        omega

theorem randomElement_returns {s : List Byte} {src : Source} (pos : Nat)
    (hne : s ≠ []) (hr : src.InRange) :
    ∃ b err, randomElement s src pos = .returned b err (pos + 1) := by
  have hpos : 0 < s.length := List.length_pos.mpr hne
  cases hv : src pos (s.length : Int) with
  | value v =>
    obtain ⟨h0, h1⟩ := hr pos _ v (by omega) hv
    obtain ⟨b, hb, _⟩ := randomElement_value hv h0 h1
    exact ⟨b, none, hb⟩
  | fail id => exact ⟨0, _, randomElement_fail hne hv⟩

theorem randomlySwap_returns (b : List Byte) (e : Byte) {src : Source} (pos : Nat)
    (hlen : (b.length : Int) + 1 < 2 ^ 63) (hr : src.InRange) :
    ∃ r err, randomlySwap b e src pos = .returned r err (pos + 1) := by
  cases hv : src pos ((b.length : Int) + 1) with
  | value v =>
    obtain ⟨h0, h1⟩ := hr pos _ v (by omega) hv
    exact ⟨_, none, randomlySwap_eq_insertAt hlen hv h0 (by omega)⟩
  | fail id => exact ⟨[], _, randomlySwap_fail hlen hv⟩

theorem generateCharsetPermuteLoop_returns (charset : List Byte) (src : Source)
    (hr : src.InRange) :
    ∀ (k : Nat) (pass : List Byte) (pos : Nat), (0 < k → charset ≠ []) →
      ((pass.length : Int) + k < 2 ^ 63) →
      ∃ val err p, generateCharsetPermuteLoop charset k pass src pos = .returned val err p := by
  intro k
  induction k with
  | zero =>
    intro pass pos _ _
    exact ⟨pass, none, pos, by simp [generateCharsetPermuteLoop]⟩
  | succ k ih =>
    intro pass pos hne hlen
    obtain ⟨b, err, hb⟩ := randomElement_returns pos (hne (by omega)) hr
    unfold generateCharsetPermuteLoop
    rw [hb]
    cases err with
    | some e => exact ⟨_, _, _, rfl⟩
    | none =>
      simp only
      obtain ⟨r, err2, hsw⟩ := randomlySwap_returns pass b (pos + 1)
        (by push_cast at hlen; omega) hr
      rw [hsw]
      cases err2 with
      | some e => exact ⟨_, _, _, rfl⟩
      | none =>
        simp only
        have hrl := randomlySwap_length hsw
        exact ih r _ (fun _ => hne (by omega)) (by rw [hrl]; push_cast at hlen ⊢; omega)

theorem generateLengthLoop_returns (chars : List Byte) (src : Source) (hne : chars ≠ [])
    (hr : src.InRange) :
    ∀ (k : Nat) (pass : List Byte) (pos : Nat),
      ∃ val err p, generateLengthLoop chars k pass src pos = .returned val err p := by
  intro k
  induction k with
  | zero =>
    intro pass pos
    exact ⟨pass, none, pos, by simp [generateLengthLoop]⟩
  | succ k ih =>
    intro pass pos
    obtain ⟨b, err, hb⟩ := randomElement_returns pos hne hr
    unfold generateLengthLoop
    rw [hb]
    cases err with
    | some e => exact ⟨_, _, _, rfl⟩
    | none =>
      simp only
      exact ih _ _

theorem Generate_stages (g : Generator) (numLower numUpper numDigits numSymbols : Int)
    (src : Source) (pos : Nat)
    (hl : 0 ≤ numLower) (hu : 0 ≤ numUpper) (hd : 0 ≤ numDigits) (hs : 0 ≤ numSymbols)
    (hal : 0 < numLower → g.lowercase ≠ []) (hau : 0 < numUpper → g.uppercase ≠ [])
    (had : 0 < numDigits → g.digits ≠ []) (has : 0 < numSymbols → g.symbols ≠ [])
    (hlen : 0 < goAdd (goAdd (goAdd numLower numUpper) numDigits) numSymbols)
    (hcap : goAdd (goAdd (goAdd numLower numUpper) numDigits) numSymbols ≤ maxAlloc) :
    g.Generate numLower numUpper numDigits numSymbols src pos =
      match generateCharsetPermuteLoop g.lowercase numLower.toNat [] src pos with
      | .panicked => .panicked
      | .returned _ (some err) p => .returned [] (some err) p
      | .returned pass none p =>
        match generateCharsetPermuteLoop g.uppercase numUpper.toNat pass src p with
        | .panicked => .panicked
        | .returned _ (some err) p => .returned [] (some err) p
        | .returned pass none p =>
          match generateCharsetPermuteLoop g.digits numDigits.toNat pass src p with
          | .panicked => .panicked
          | .returned _ (some err) p => .returned [] (some err) p
          | .returned pass none p =>
            match generateCharsetPermuteLoop g.symbols numSymbols.toNat pass src p with
            | .panicked => .panicked
            | .returned _ (some err) p => .returned [] (some err) p
            | .returned pass none p => .returned pass none p := by
  unfold Generator.Generate
  rw [if_neg (by omega), if_neg (fun h => hal h.1 (List.length_eq_zero.mp h.2)),
    if_neg (fun h => hau h.1 (List.length_eq_zero.mp h.2)),
    if_neg (fun h => had h.1 (List.length_eq_zero.mp h.2)),
    if_neg (fun h => has h.1 (List.length_eq_zero.mp h.2))]
  simp only
  rw [if_neg (by omega), if_neg (by omega)]
  unfold generateCharsetPermute
  rfl

theorem Generate_alloc_panics (g : Generator)
    (numLower numUpper numDigits numSymbols : Int) (src : Source) (pos : Nat)
    (hl : 0 ≤ numLower) (hu : 0 ≤ numUpper) (hd : 0 ≤ numDigits) (hs : 0 ≤ numSymbols)
    (hal : 0 < numLower → g.lowercase ≠ []) (hau : 0 < numUpper → g.uppercase ≠ [])
    (had : 0 < numDigits → g.digits ≠ []) (has : 0 < numSymbols → g.symbols ≠ [])
    (h0 : goAdd (goAdd (goAdd numLower numUpper) numDigits) numSymbols ≠ 0)
    (hbad : goAdd (goAdd (goAdd numLower numUpper) numDigits) numSymbols < 0 ∨
      maxAlloc < goAdd (goAdd (goAdd numLower numUpper) numDigits) numSymbols) :
    g.Generate numLower numUpper numDigits numSymbols src pos = .panicked := by
  unfold Generator.Generate
  rw [if_neg (by omega), if_neg (fun h => hal h.1 (List.length_eq_zero.mp h.2)),
    if_neg (fun h => hau h.1 (List.length_eq_zero.mp h.2)),
    if_neg (fun h => had h.1 (List.length_eq_zero.mp h.2)),
    if_neg (fun h => has h.1 (List.length_eq_zero.mp h.2))]
  simp only
  rw [if_neg h0, if_pos hbad]

theorem Generate_success_length (g : Generator)
    (numLower numUpper numDigits numSymbols : Int) (src : Source) (pos p : Nat)
    (val : List Byte)
    (hl : 0 ≤ numLower) (hu : 0 ≤ numUpper) (hd : 0 ≤ numDigits) (hs : 0 ≤ numSymbols)
    (hal : 0 < numLower → g.lowercase ≠ []) (hau : 0 < numUpper → g.uppercase ≠ [])
    (had : 0 < numDigits → g.digits ≠ []) (has : 0 < numSymbols → g.symbols ≠ [])
    (hlen : 0 < goAdd (goAdd (goAdd numLower numUpper) numDigits) numSymbols)
    (h : g.Generate numLower numUpper numDigits numSymbols src pos = .returned val none p) :
    val.length = numLower.toNat + numUpper.toNat + numDigits.toNat + numSymbols.toNat := by
  have hcap : goAdd (goAdd (goAdd numLower numUpper) numDigits) numSymbols ≤ maxAlloc := by
    by_contra hbig
    rw [Generate_alloc_panics g _ _ _ _ src pos hl hu hd hs hal hau had has (by omega)
      (Or.inr (by omega))] at h
    cases h
  rw [Generate_stages g _ _ _ _ src pos hl hu hd hs hal hau had has hlen hcap] at h
  split at h
  · cases h
  · injection h with _ he _
    cases he
  · rename_i h1
    split at h
    · cases h
    · injection h with _ he _
      cases he
    · rename_i h2
      split at h
      · cases h
      · injection h with _ he _
        cases he
      · rename_i h3
        split at h
        · cases h
        · injection h with _ he _
          cases he
        · rename_i h4
          injection h with hv _ _
          subst hv
          rw [generateCharsetPermuteLoop_length _ _ _ _ _ _ _ h4,
            generateCharsetPermuteLoop_length _ _ _ _ _ _ _ h3,
            generateCharsetPermuteLoop_length _ _ _ _ _ _ _ h2,
            generateCharsetPermuteLoop_length _ _ _ _ _ _ _ h1]
          simp

theorem Generate_returns (g : Generator) (numLower numUpper numDigits numSymbols : Int)
    (src : Source) (pos : Nat) (hr : src.InRange)
    (hl : 0 ≤ numLower) (hu : 0 ≤ numUpper) (hd : 0 ≤ numDigits) (hs : 0 ≤ numSymbols)
    (hal : 0 < numLower → g.lowercase ≠ []) (hau : 0 < numUpper → g.uppercase ≠ [])
    (had : 0 < numDigits → g.digits ≠ []) (has : 0 < numSymbols → g.symbols ≠ [])
    (h0 : 0 < numLower + numUpper + numDigits + numSymbols)
    (hsum : numLower + numUpper + numDigits + numSymbols ≤ maxAlloc) :
    ∃ val err p,
      g.Generate numLower numUpper numDigits numSymbols src pos = .returned val err p := by
  have hmax : maxAlloc = 2 ^ 48 := rfl
  have e1 := goAdd_of_inRange (a := numLower) (b := numUpper) (by omega) (by omega)
  have e2 := goAdd_of_inRange (a := numLower + numUpper) (b := numDigits) (by omega) (by omega)
  have e3 := goAdd_of_inRange (a := numLower + numUpper + numDigits) (b := numSymbols)
    (by omega) (by omega)
  rw [Generate_stages g _ _ _ _ src pos hl hu hd hs hal hau had has
    (by rw [e1, e2, e3]; exact h0) (by rw [e1, e2, e3]; exact hsum)]
  obtain ⟨v1, r1, p1, h1⟩ := generateCharsetPermuteLoop_returns g.lowercase src hr
    numLower.toNat [] pos (fun h => hal (by omega)) (by simp only [List.length_nil]; omega)
  rw [h1]
  cases r1 with
  | some e => exact ⟨_, _, _, rfl⟩
  | none =>
    simp only
    have l1 := generateCharsetPermuteLoop_length _ _ _ _ _ _ _ h1
    obtain ⟨v2, r2, p2, h2⟩ := generateCharsetPermuteLoop_returns g.uppercase src hr
      numUpper.toNat v1 p1 (fun h => hau (by omega))
      (by rw [l1]; simp only [List.length_nil]; omega)
    rw [h2]
    cases r2 with
    | some e => exact ⟨_, _, _, rfl⟩
    | none =>
      simp only
      have l2 := generateCharsetPermuteLoop_length _ _ _ _ _ _ _ h2
      obtain ⟨v3, r3, p3, h3⟩ := generateCharsetPermuteLoop_returns g.digits src hr
        numDigits.toNat v2 p2 (fun h => had (by omega))
        (by rw [l2, l1]; simp only [List.length_nil]; omega)
      rw [h3]
      cases r3 with
      | some e => exact ⟨_, _, _, rfl⟩
      | none =>
        simp only
        have l3 := generateCharsetPermuteLoop_length _ _ _ _ _ _ _ h3
        obtain ⟨v4, r4, p4, h4⟩ := generateCharsetPermuteLoop_returns g.symbols src hr
          numSymbols.toNat v3 p3 (fun h => has (by omega))
          (by rw [l3, l2, l1]; simp only [List.length_nil]; omega)
        rw [h4]
        cases r4 with
        | some e => exact ⟨_, _, _, rfl⟩
        | none => exact ⟨_, _, _, rfl⟩

theorem Generate_no_request (g : Generator) (src : Source) (pos : Nat) :
    g.Generate 0 0 0 0 src pos = .returned [] none pos := by
  unfold Generator.Generate
  simp [goAdd, wrapInt_eq_emod]

/-- C18 (as amended): with a source whose delivered values lie below the bound
asked for, `Generate` does not panic on any argument tuple that passes
validation and whose sum is at most the allocation limit `maxAlloc`, and
`GenerateLength` does not panic on any length that is at most `maxAlloc`: every
bound passed to `randomNumberN` is positive, every index is in range and the
capacity passed to `make` is in range (the embedding panics exactly where the
Go code would: a non-positive bound, an index out of range, a capacity that is
negative or above the allocation limit). -/
theorem never_panics (g : Generator) (numLower numUpper numDigits numSymbols length : Int)
    (src : Source) (pos : Nat) (hr : src.InRange) :
    (0 ≤ numLower → 0 ≤ numUpper → 0 ≤ numDigits → 0 ≤ numSymbols →
      (0 < numLower → g.lowercase ≠ []) → (0 < numUpper → g.uppercase ≠ []) →
      (0 < numDigits → g.digits ≠ []) → (0 < numSymbols → g.symbols ≠ []) →
      numLower + numUpper + numDigits + numSymbols ≤ maxAlloc →
      g.Generate numLower numUpper numDigits numSymbols src pos ≠ .panicked) ∧
    (length ≤ maxAlloc → g.GenerateLength length src pos ≠ .panicked) := by
  constructor
  · intro hl hu hd hs hal hau had has hsum
    by_cases h0 : numLower + numUpper + numDigits + numSymbols = 0
    · have e1 : numLower = 0 := by omega
      have e2 : numUpper = 0 := by omega
      have e3 : numDigits = 0 := by omega
      have e4 : numSymbols = 0 := by omega
      subst e1 e2 e3 e4
      rw [Generate_no_request]
      intro h
      cases h
    · obtain ⟨val, err, p, h⟩ := Generate_returns g _ _ _ _ src pos hr hl hu hd hs hal hau
        had has (by omega) hsum
      rw [h]
      intro h
      cases h
  · intro hcap
    unfold Generator.GenerateLength
    split_ifs with h1 h2 h3 h4
    · intro h; cases h
    · intro h; cases h
    · intro h; cases h
    · exfalso
      omega
    · obtain ⟨val, err, p, h⟩ := generateLengthLoop_returns g.chars src
        (fun hnil => h3 (by simp [hnil])) hr length.toNat [] pos
      rw [h]
      intro h
      cases h

/-- C18, witness: the default generator with one character of each class, and
length 5, under the cyclic source. -/
theorem never_panics_witness :
    cyclicSource.InRange ∧ ((1 : Int) + 1 + 1 + 1 ≤ maxAlloc) ∧ ((5 : Int) ≤ maxAlloc) ∧
    (NewGenerator none).Generate 1 1 1 1 cyclicSource 0 ≠ .panicked ∧
    (NewGenerator none).GenerateLength 5 cyclicSource 0 ≠ .panicked :=
  ⟨cyclicSource_inRange, by decide, by decide,
    (never_panics (NewGenerator none) 1 1 1 1 5 cyclicSource 0 cyclicSource_inRange).1
      (by decide) (by decide) (by decide) (by decide) (fun _ => by decide)
      (fun _ => by decide) (fun _ => by decide) (fun _ => by decide) (by decide),
    (never_panics (NewGenerator none) 1 1 1 1 5 cyclicSource 0 cyclicSource_inRange).2
      (by decide)⟩

/-- C18, counterexample: on the default generator, under the cyclic source
(whose values are in range), three calls whose arguments pass validation panic
in `make`, before any draw.  `Generate(2^48 + 1, 0, 0, 0)` and
`GenerateLength(2^48 + 1)` ask for a capacity above the allocation limit; in
`Generate(2^62, 2^62, 0, 0)` the sum wraps to `-2^63`, a negative capacity. -/
theorem Generate_panics_counterexample :
    cyclicSource.InRange ∧ ((0 : Int) ≤ 2 ^ 48 + 1) ∧ ((0 : Int) ≤ 2 ^ 62) ∧
    (NewGenerator none).lowercase ≠ [] ∧ (NewGenerator none).uppercase ≠ [] ∧
    (NewGenerator none).chars ≠ [] ∧
    (NewGenerator none).Generate (2 ^ 48 + 1) 0 0 0 cyclicSource 0 = .panicked ∧
    (NewGenerator none).GenerateLength (2 ^ 48 + 1) cyclicSource 0 = .panicked ∧
    goAdd (goAdd (goAdd (2 ^ 62) (2 ^ 62)) 0) 0 = -2 ^ 63 ∧
    (NewGenerator none).Generate (2 ^ 62) (2 ^ 62) 0 0 cyclicSource 0 = .panicked := by
  refine ⟨cyclicSource_inRange, by decide, by decide, by decide, by decide, by decide,
    by decide, by decide, by decide, by decide⟩

/-- C19 (as amended): for a generator with four non-empty classes and counts
`≥ 0` whose sum is at most `2^63 - 1`, the length that `Generate` computes is the
sum of the counts; it is non-negative (so the capacity is never negative) and
zero only when all four counts are zero; and `Generate` returns the empty
password with a nil error only when no characters were requested. -/
theorem Generate_length_sum (g : Generator) (numLower numUpper numDigits numSymbols : Int)
    (src : Source) (pos : Nat)
    (hl : 0 ≤ numLower) (hu : 0 ≤ numUpper) (hd : 0 ≤ numDigits) (hs : 0 ≤ numSymbols)
    (hsum : numLower + numUpper + numDigits + numSymbols < 2 ^ 63)
    (hcl : g.lowercase ≠ []) (hcu : g.uppercase ≠ []) (hcd : g.digits ≠ [])
    (hcs : g.symbols ≠ []) :
    goAdd (goAdd (goAdd numLower numUpper) numDigits) numSymbols
      = numLower + numUpper + numDigits + numSymbols ∧
    0 ≤ goAdd (goAdd (goAdd numLower numUpper) numDigits) numSymbols ∧
    (goAdd (goAdd (goAdd numLower numUpper) numDigits) numSymbols = 0 ↔
      numLower = 0 ∧ numUpper = 0 ∧ numDigits = 0 ∧ numSymbols = 0) ∧
    (∀ p, g.Generate numLower numUpper numDigits numSymbols src pos = .returned [] none p →
      numLower = 0 ∧ numUpper = 0 ∧ numDigits = 0 ∧ numSymbols = 0) ∧
    (numLower = 0 ∧ numUpper = 0 ∧ numDigits = 0 ∧ numSymbols = 0 →
      g.Generate numLower numUpper numDigits numSymbols src pos = .returned [] none pos) := by
  have e1 := goAdd_of_inRange (a := numLower) (b := numUpper) (by omega) (by omega)
  have e2 := goAdd_of_inRange (a := numLower + numUpper) (b := numDigits) (by omega) (by omega)
  have e3 := goAdd_of_inRange (a := numLower + numUpper + numDigits) (b := numSymbols)
    (by omega) (by omega)
  have hL : goAdd (goAdd (goAdd numLower numUpper) numDigits) numSymbols
      = numLower + numUpper + numDigits + numSymbols := by rw [e1, e2, e3]
  refine ⟨hL, by rw [hL]; omega, by rw [hL]; omega, ?_, ?_⟩
  · intro p h
    by_contra hne
    have hpos : 0 < numLower + numUpper + numDigits + numSymbols := by omega
    have hlen := Generate_success_length g _ _ _ _ src pos p [] hl hu hd hs (fun _ => hcl)
      (fun _ => hcu) (fun _ => hcd) (fun _ => hcs) (by rw [hL]; exact hpos) h
    simp only [List.length_nil] at hlen
    omega
  · rintro ⟨r1, r2, r3, r4⟩
    subst r1 r2 r3 r4
    exact Generate_no_request g src pos

/-- C19, witness: the default generator asked for 3, 0, 2 and 1 characters. -/
theorem Generate_length_sum_witness :
    goAdd (goAdd (goAdd 3 0) 2) 1 = 3 + 0 + 2 + 1 ∧
    0 ≤ goAdd (goAdd (goAdd 3 0) 2) 1 ∧
    (goAdd (goAdd (goAdd 3 0) 2) 1 = 0 ↔ (3 : Int) = 0 ∧ (0 : Int) = 0 ∧ (2 : Int) = 0 ∧
      (1 : Int) = 0) ∧
    (∀ p, (NewGenerator none).Generate 3 0 2 1 cyclicSource 0 = .returned [] none p →
      (3 : Int) = 0 ∧ (0 : Int) = 0 ∧ (2 : Int) = 0 ∧ (1 : Int) = 0) ∧
    ((3 : Int) = 0 ∧ (0 : Int) = 0 ∧ (2 : Int) = 0 ∧ (1 : Int) = 0 →
      (NewGenerator none).Generate 3 0 2 1 cyclicSource 0 = .returned [] none 0) :=
  Generate_length_sum (NewGenerator none) 3 0 2 1 cyclicSource 0 (by decide) (by decide)
    (by decide) (by decide) (by decide) (by decide) (by decide) (by decide) (by decide)

/-- C19, counterexample: on the default generator, with counts in
`[0, 2^63 - 1]`, the counts `2^63 - 1, 2^63 - 1, 2, 0` sum to `0` in Go's `int`
and `Generate` returns the empty password with a nil error although characters
were requested; the counts `2^63 - 1, 0, 0, 1` sum to `-2^63` and `Generate`
panics on the negative capacity. -/
theorem Generate_sum_wraps_counterexample :
    goAdd (goAdd (goAdd (2 ^ 63 - 1) (2 ^ 63 - 1)) 2) 0 = 0 ∧
    (NewGenerator none).Generate (2 ^ 63 - 1) (2 ^ 63 - 1) 2 0 cyclicSource 0
      = .returned [] none 0 ∧
    goAdd (goAdd (goAdd (2 ^ 63 - 1) 0) 0) 1 = -2 ^ 63 ∧
    (NewGenerator none).Generate (2 ^ 63 - 1) 0 0 1 cyclicSource 0 = .panicked := by
  refine ⟨by decide, by decide, by decide, by decide⟩

theorem failAt_delivers (k id lo : Nat) : (failAt k id).DeliversOn lo k := by
  intro i _ hi max hmax
  refine ⟨(i : Int) % max, ?_, Int.emod_nonneg _ (by omega), Int.emod_lt_of_pos _ hmax⟩
  unfold failAt
  rw [if_neg (by omega)]

theorem failAt_fails (k id : Nat) (max : Int) : failAt k id k max = .fail id := by
  unfold failAt
  rw [if_pos rfl]

theorem generateLengthLoop_fail (chars : List Byte) (src : Source) (k id : Nat)
    (hne : chars ≠ []) (hfail : ∀ max, src k max = .fail id) :
    ∀ (n : Nat) (pass : List Byte) (pos : Nat), pos ≤ k → k < pos + n →
      src.DeliversOn pos k →
      generateLengthLoop chars n pass src pos = .returned [] (some (.entropy id)) (k + 1) := by
  intro n
  induction n with
  | zero => intro pass pos h1 h2; omega
  | succ n ih =>
    intro pass pos h1 h2 hsrc
    have hpos : 0 < chars.length := List.length_pos.mpr hne
    unfold generateLengthLoop
    by_cases hk : k = pos
    · subst hk
      rw [randomElement_fail hne (hfail _)]
    · obtain ⟨v, hv, h0, hv1⟩ := hsrc pos (le_refl _) (by omega) (chars.length : Int) (by omega)
      obtain ⟨b, hb, _⟩ := randomElement_value hv h0 hv1
      rw [hb]
      simp only
      exact ih _ _ (by omega) (by omega) (hsrc.mono (by omega) (le_refl _))

theorem generateCharsetPermuteLoop_fail (charset : List Byte) (src : Source) (k id : Nat)
    (hne : charset ≠ []) (hfail : ∀ max, src k max = .fail id) :
    ∀ (n : Nat) (pass : List Byte) (pos : Nat), pos ≤ k → k < pos + 2 * n →
      pass.length + (k - pos + 1) / 2 < 2 ^ 63 → src.DeliversOn pos k →
      generateCharsetPermuteLoop charset n pass src pos
        = .returned [] (some (.entropy id)) (k + 1) := by
  intro n
  induction n with
  | zero => intro pass pos h1 h2; omega
  | succ n ih =>
    intro pass pos h1 h2 hlen hsrc
    have hpos : 0 < charset.length := List.length_pos.mpr hne
    unfold generateCharsetPermuteLoop
    by_cases hk : k = pos
    · subst hk
      rw [randomElement_fail hne (hfail _)]
    · obtain ⟨v, hv, h0, hv1⟩ := hsrc pos (le_refl _) (by omega) (charset.length : Int)
        (by omega)
      obtain ⟨b, hb, _⟩ := randomElement_value hv h0 hv1
      rw [hb]
      simp only
      have hl1 : (pass.length : Int) + 1 < 2 ^ 63 := by omega
      by_cases hk2 : k = pos + 1
      · subst hk2
        rw [randomlySwap_fail hl1 (hfail _)]
      · obtain ⟨j, hj, hj0, hj1⟩ := hsrc (pos + 1) (by omega) (by omega)
          ((pass.length : Int) + 1) (by omega)
        have hsw := randomlySwap_eq_insertAt (e := b) hl1 hj hj0 (by omega)
        rw [hsw]
        simp only
        have hrl : (insertAt pass b j.toNat).length = pass.length + 1 :=
          insertAt_length pass b _ (by omega)
        exact ih _ _ (by omega) (by omega) (by rw [hrl]; omega)
          (hsrc.mono (by omega) (le_refl _))

/-- C11: if the draws before number `k` deliver and draw `k` fails with the
error `id`, then a call of `Generate` or `GenerateLength` whose arguments pass
validation and that makes draw `k` stops there: it returns the empty string
with exactly that error, having made no draw after `k`.  For `Generate`, draw
`k` is made when the zero-length shortcut and the allocation are passed (the
computed length is positive and at most `maxAlloc`) and `k` is among the two
draws per requested character (and below `2^64 - 1`, where the insertion
position would overflow).  For `GenerateLength`, draw `k` is made when the pool
is non-empty, the allocation is passed and `k` is among the `length` draws. -/
theorem draw_failure_stops (g : Generator)
    (numLower numUpper numDigits numSymbols length : Int)
    (src : Source) (pos k id : Nat)
    (hk : pos ≤ k) (hsrc : src.DeliversOn pos k) (hfail : ∀ max, src k max = .fail id) :
    (0 ≤ numLower → 0 ≤ numUpper → 0 ≤ numDigits → 0 ≤ numSymbols →
      (0 < numLower → g.lowercase ≠ []) → (0 < numUpper → g.uppercase ≠ []) →
      (0 < numDigits → g.digits ≠ []) → (0 < numSymbols → g.symbols ≠ []) →
      0 < goAdd (goAdd (goAdd numLower numUpper) numDigits) numSymbols →
      goAdd (goAdd (goAdd numLower numUpper) numDigits) numSymbols ≤ maxAlloc →
      k < pos + 2 * (numLower + numUpper + numDigits + numSymbols).toNat →
      k + 1 < pos + 2 ^ 64 →
      g.Generate numLower numUpper numDigits numSymbols src pos
        = .returned [] (some (.entropy id)) (k + 1)) ∧
    (g.chars ≠ [] → length ≤ maxAlloc → k < pos + length.toNat →
      g.GenerateLength length src pos = .returned [] (some (.entropy id)) (k + 1)) := by
  constructor
  · intro hl hu hd hs hal hau had has hlen hcap hkt hk64
    rw [Generate_stages g _ _ _ _ src pos hl hu hd hs hal hau had has hlen hcap]
    by_cases c1 : k < pos + 2 * numLower.toNat
    · rw [generateCharsetPermuteLoop_fail g.lowercase src k id (hal (by omega)) hfail
        numLower.toNat [] pos hk c1 (by simp only [List.length_nil]; omega) hsrc]
    · obtain ⟨pw1, _, h1, _, _, _⟩ := generateCharsetPermuteLoop_ok g.lowercase src
        numLower.toNat [] pos (fun h => hal (by omega))
        (by simp only [List.length_nil]; omega) (hsrc.mono (le_refl _) (by omega))
      have l1 := generateCharsetPermuteLoop_length _ _ _ _ _ _ _ h1
      simp only [List.length_nil] at l1
      rw [h1]
      simp only
      by_cases c2 : k < pos + 2 * numLower.toNat + 2 * numUpper.toNat
      · rw [generateCharsetPermuteLoop_fail g.uppercase src k id (hau (by omega)) hfail
          numUpper.toNat pw1 _ (by omega) c2 (by rw [l1]; omega)
          (hsrc.mono (by omega) (le_refl _))]
      · obtain ⟨pw2, _, h2, _, _, _⟩ := generateCharsetPermuteLoop_ok g.uppercase src
          numUpper.toNat pw1 (pos + 2 * numLower.toNat) (fun h => hau (by omega))
          (by rw [l1]; omega) (hsrc.mono (by omega) (by omega))
        have l2 := generateCharsetPermuteLoop_length _ _ _ _ _ _ _ h2
        rw [h2]
        simp only
        by_cases c3 : k < pos + 2 * numLower.toNat + 2 * numUpper.toNat + 2 * numDigits.toNat
        · rw [generateCharsetPermuteLoop_fail g.digits src k id (had (by omega)) hfail
            numDigits.toNat pw2 _ (by omega) c3 (by rw [l2, l1]; omega)
            (hsrc.mono (by omega) (le_refl _))]
        · obtain ⟨pw3, _, h3, _, _, _⟩ := generateCharsetPermuteLoop_ok g.digits src
            numDigits.toNat pw2 (pos + 2 * numLower.toNat + 2 * numUpper.toNat)
            (fun h => had (by omega)) (by rw [l2, l1]; omega)
            (hsrc.mono (by omega) (by omega))
          have l3 := generateCharsetPermuteLoop_length _ _ _ _ _ _ _ h3
          rw [h3]
          simp only
          rw [generateCharsetPermuteLoop_fail g.symbols src k id (has (by omega)) hfail
            numSymbols.toNat pw3 _ (by omega) (by omega) (by rw [l3, l2, l1]; omega)
            (hsrc.mono (by omega) (le_refl _))]
  · intro hpool hcap hkt
    unfold Generator.GenerateLength
    rw [if_neg (by omega), if_neg (by omega), if_neg (by simpa using hpool),
      if_neg (by omega)]
    exact generateLengthLoop_fail g.chars src k id hpool hfail _ _ _ hk hkt hsrc

/-- C11, witness: on the default generator the fourth draw (number 3) fails with
error 7, in `Generate(2, 1, 0, 0)` and in `GenerateLength(5)`. -/
theorem draw_failure_stops_witness :
    (NewGenerator none).Generate 2 1 0 0 (failAt 3 7) 0
      = .returned [] (some (.entropy 7)) (3 + 1) ∧
    (NewGenerator none).GenerateLength 5 (failAt 3 7) 0
      = .returned [] (some (.entropy 7)) (3 + 1) :=
  ⟨(draw_failure_stops (NewGenerator none) 2 1 0 0 5 (failAt 3 7) 0 3 7 (by decide)
      (failAt_delivers 3 7 0) (failAt_fails 3 7)).1 (by decide) (by decide) (by decide)
      (by decide) (fun _ => by decide) (fun _ => by decide) (fun h => absurd h (by decide))
      (fun h => absurd h (by decide)) (by decide) (by decide) (by decide) (by decide),
    (draw_failure_stops (NewGenerator none) 2 1 0 0 5 (failAt 3 7) 0 3 7 (by decide)
      (failAt_delivers 3 7 0) (failAt_fails 3 7)).2 (by decide) (by decide) (by decide)⟩

/-! ## `GenerateLength` as a function of the delivered indices -/

theorem generateLengthLoop_indices (chars : List Byte) (src : Source) :
    ∀ (is : List Nat) (pass : List Byte) (pos : Nat),
      (∀ k i : Nat, is[k]? = some i →
        src (pos + k) (chars.length : Int) = .value (i : Int) ∧ i < chars.length) →
      generateLengthLoop chars is.length pass src pos
        = .returned (pass ++ is.map (fun i => chars.getD i 0)) none (pos + is.length) := by
  intro is
  induction is with
  | nil =>
    intro pass pos _
    simp [generateLengthLoop]
  | cons i is ih =>
    intro pass pos h
    obtain ⟨hv, hi⟩ := h 0 i (by simp)
    rw [Nat.add_zero] at hv
    obtain ⟨b, hb, hget⟩ := randomElement_value (s := chars) (v := (i : Int)) hv (by omega)
      (by omega)
    have hbi : b = chars.getD i 0 := by
      simp only [Int.toNat_ofNat] at hget
      simp [hget]
    simp only [List.length_cons]
    unfold generateLengthLoop
    rw [hb]
    simp only
    rw [ih (pass ++ [b]) (pos + 1) (fun k i' hk => by
      have := h (k + 1) i' (by simpa using hk)
      rw [show pos + 1 + k = pos + (k + 1) by omega]
      exact this)]
    subst hbi
    simp [Nat.add_assoc, Nat.add_comm 1]

theorem listSource_delivers (vs : List Nat) (k v : Nat) (max : Int) (h : vs[k]? = some v) :
    listSource vs k max = .value (v : Int) := by
  unfold listSource
  rw [h]

theorem map_getD_injective (chars : List Byte) (hnd : chars.Nodup) :
    ∀ (is is' : List Nat), (∀ i ∈ is, i < chars.length) → (∀ i ∈ is', i < chars.length) →
      is.map (fun i => chars.getD i 0) = is'.map (fun i => chars.getD i 0) → is = is' := by
  intro is
  induction is with
  | nil =>
    intro is' _ _ h
    cases is' with
    | nil => rfl
    | cons _ _ => simp at h
  | cons i is ih =>
    intro is' h1 h2 h
    cases is' with
    | nil => simp at h
    | cons i' is' =>
      simp only [List.map_cons, List.cons.injEq] at h
      have hi : i < chars.length := h1 i (List.mem_cons_self _ _)
      have hi' : i' < chars.length := h2 i' (List.mem_cons_self _ _)
      have e : i = i' := by
        have := h.1
        rw [List.getD_eq_getElem _ _ hi, List.getD_eq_getElem _ _ hi'] at this
        exact (hnd.getElem_inj_iff).mp this
      rw [e, ih is' (fun x hx => h1 x (List.mem_cons_of_mem _ hx))
        (fun x hx => h2 x (List.mem_cons_of_mem _ hx)) h.2]

theorem map_getD_indexOf (chars : List Byte) :
    ∀ (w : List Byte), (∀ c ∈ w, c ∈ chars) →
      (w.map (fun c => chars.indexOf c)).map (fun i => chars.getD i 0) = w := by
  intro w
  induction w with
  | nil => intro _; rfl
  | cons c w ih =>
    intro h
    have hc : chars.indexOf c < chars.length := List.indexOf_lt_length.mpr (h c (List.mem_cons_self _ _))
    simp only [List.map_cons]
    rw [ih (fun x hx => h x (List.mem_cons_of_mem _ hx)), List.getD_eq_getElem _ _ hc,
      List.getElem_indexOf hc]

theorem GenerateLength_run (g : Generator) (src : Source) (pos : Nat) (is : List Nat)
    (hpool : g.chars ≠ []) (hlen : 0 < is.length) (hcap : (is.length : Int) ≤ maxAlloc)
    (h : ∀ k i : Nat, is[k]? = some i →
      src (pos + k) (g.chars.length : Int) = .value (i : Int) ∧ i < g.chars.length) :
    g.GenerateLength (is.length : Int) src pos
      = .returned (is.map (fun i => g.chars.getD i 0)) none (pos + is.length) := by
  unfold Generator.GenerateLength
  rw [if_neg (by omega), if_neg (by omega), if_neg (by simpa using hpool),
    if_neg (by omega)]
  have := generateLengthLoop_indices g.chars src is [] pos h
  simpa using this

theorem GenerateLength_run_listSource (g : Generator) (is : List Nat)
    (hpool : g.chars ≠ []) (hlen : 0 < is.length) (hcap : (is.length : Int) ≤ maxAlloc)
    (h : ∀ i ∈ is, i < g.chars.length) :
    g.GenerateLength (is.length : Int) (listSource is) 0
      = .returned (is.map (fun i => g.chars.getD i 0)) none is.length := by
  have := GenerateLength_run g (listSource is) 0 is hpool hlen hcap (fun k i hk => by
    rw [Nat.zero_add]
    exact ⟨listSource_delivers is k i _ hk, h i (List.getElem?_mem hk)⟩)
  simpa using this

/-- C17: for a generator with non-empty pool `P` and a length `L > 0` whose
allocation is passed (`L` is at most `maxAlloc`, so that the call reaches its
draws), if the source delivers the indices `i_1 .. i_L` (each below `len(P)`)
to the draws with bound `len(P)`, `GenerateLength(L)` returns exactly
`P[i_1] .. P[i_L]`, in draw order, after `L` draws; when the bytes of `P` are
pairwise distinct, different index sequences give different passwords, and
every string of length `L` over the pool is the password of some index
sequence. -/
theorem GenerateLength_indices (g : Generator) (length : Int)
    (hpool : g.chars ≠ []) (hlen : 0 < length) (hcap : length ≤ maxAlloc) :
    (∀ (src : Source) (pos : Nat) (is : List Nat), (is.length : Int) = length →
      (∀ k i : Nat, is[k]? = some i →
        src (pos + k) (g.chars.length : Int) = .value (i : Int) ∧ i < g.chars.length) →
      g.GenerateLength length src pos
        = .returned (is.map (fun i => g.chars.getD i 0)) none (pos + is.length)) ∧
    (g.chars.Nodup → ∀ is is' : List Nat, (is.length : Int) = length →
      (is'.length : Int) = length →
      (∀ i ∈ is, i < g.chars.length) → (∀ i ∈ is', i < g.chars.length) →
      g.GenerateLength length (listSource is) 0 = g.GenerateLength length (listSource is') 0 →
      is = is') ∧
    (∀ w : List Byte, (w.length : Int) = length → (∀ c ∈ w, c ∈ g.chars) →
      ∃ is : List Nat, (is.length : Int) = length ∧ (∀ i ∈ is, i < g.chars.length) ∧
        g.GenerateLength length (listSource is) 0 = .returned w none is.length) := by
  refine ⟨?_, ?_, ?_⟩
  · intro src pos is hl h
    rw [← hl]
    exact GenerateLength_run g src pos is hpool (by omega) (by omega) h
  · intro hnd is is' hl hl' h h' heq
    rw [← hl] at heq
    rw [GenerateLength_run_listSource g is hpool (by omega) (by omega) h] at heq
    rw [hl, ← hl', GenerateLength_run_listSource g is' hpool (by omega) (by omega) h'] at heq
    injection heq with hval _ _
    exact map_getD_injective g.chars hnd is is' h h' hval
  · intro w hl hw
    refine ⟨w.map (fun c => g.chars.indexOf c), by simpa using hl, ?_, ?_⟩
    · intro i hi
      obtain ⟨c, hc, rfl⟩ := List.mem_map.mp hi
      exact List.indexOf_lt_length.mpr (hw c hc)
    · have hl2 : ((w.map (fun c => g.chars.indexOf c)).length : Int) = length := by
        simpa using hl
      rw [← hl2, GenerateLength_run_listSource g _ hpool (by omega) (by omega) (fun i hi => by
        obtain ⟨c, hc, rfl⟩ := List.mem_map.mp hi
        exact List.indexOf_lt_length.mpr (hw c hc)), map_getD_indexOf g.chars w hw]

/-- C17, witness: the default generator, length 3 and the indices 0, 27, 61
(the password is "aB9"). -/
theorem GenerateLength_indices_witness :
    (NewGenerator none).GenerateLength 3 (listSource [0, 27, 61]) 0
      = .returned ([0, 27, 61].map (fun i => (NewGenerator none).chars.getD i 0)) none
        (0 + [0, 27, 61].length) ∧
    [0, 27, 61].map (fun i => (NewGenerator none).chars.getD i 0) = asciiBytes "aB9" :=
  ⟨(GenerateLength_indices (NewGenerator none) 3 (by decide) (by decide) (by decide)).1
      (listSource [0, 27, 61]) 0 [0, 27, 61] (by decide) (fun k i hk => by
        have hm : i ∈ [0, 27, 61] := List.getElem?_mem hk
        refine ⟨?_, ?_⟩
        · rw [Nat.zero_add]
          exact listSource_delivers _ k i _ hk
        · have : (NewGenerator none).chars.length = 94 := by decide
          rw [this]
          simp only [List.mem_cons, List.mem_singleton, List.not_mem_nil, or_false] at hm
          omega),
    by decide⟩

/-! ## The online insertion is a bijection -/

theorem insertAt_getElem_self (b : List Byte) (e : Byte) (j : Nat) (hj : j ≤ b.length) :
    (insertAt b e j)[j]? = some e := by
  by_cases h : j = b.length
  · rw [h, insertAt_end]
    simp
  · have hlt : j < b.length := by omega
    unfold insertAt
    rw [if_neg h, List.getElem?_eq_getElem hlt]
    simp only
    rw [List.getElem?_set_self (by simp; omega)]

theorem insertAt_getElem_other (b : List Byte) (e : Byte) (j i : Nat) (hj : j ≤ b.length)
    (hi : i < b.length) (hij : i ≠ j) : (insertAt b e j)[i]? = b[i]? := by
  by_cases h : j = b.length
  · rw [h, insertAt_end, List.getElem?_append_left hi]
  · have hlt : j < b.length := by omega
    unfold insertAt
    rw [if_neg h, List.getElem?_eq_getElem hlt]
    simp only
    rw [List.getElem?_set_ne (fun h => hij h.symm), List.getElem?_append_left hi]

theorem insertAt_getElem_last (b : List Byte) (e : Byte) (j : Nat) (hj : j < b.length) :
    (insertAt b e j)[b.length]? = b[j]? := by
  unfold insertAt
  rw [if_neg (by omega), List.getElem?_eq_getElem hj]
  simp only
  rw [List.getElem?_set_ne (by omega), List.getElem?_append_right (le_refl _)]
  simp

theorem insertAt_injective {b b' : List Byte} {e : Byte} {j j' : Nat}
    (he : e ∉ b) (hlen : b.length = b'.length)
    (hj : j ≤ b.length) (hj' : j' ≤ b'.length)
    (h : insertAt b e j = insertAt b' e j') : j = j' ∧ b = b' := by
  have hjj : j = j' := by
    by_contra hne
    have h1 : (insertAt b e j)[j']? = some e := by
      rw [h]
      exact insertAt_getElem_self b' e j' hj'
    by_cases hlast : j' = b.length
    · have hjlt : j < b.length := by omega
      rw [hlast, insertAt_getElem_last b e j hjlt] at h1
      exact he (List.getElem?_mem h1)
    · rw [insertAt_getElem_other b e j j' hj (by omega) (fun h => hne h.symm)] at h1
      exact he (List.getElem?_mem h1)
  subst hjj
  refine ⟨rfl, ?_⟩
  apply List.ext_getElem?
  intro i
  by_cases hi : i < b.length
  · by_cases hij : i = j
    · subst hij
      rw [← insertAt_getElem_last b e i hi, h, hlen, insertAt_getElem_last b' e i (by omega)]
    · rw [← insertAt_getElem_other b e j i hj hi hij, h,
        insertAt_getElem_other b' e j i hj' (by omega) hij]
  · rw [List.getElem?_eq_none (by omega), List.getElem?_eq_none (by omega)]

theorem insertAt_surjective (e : Byte) (p : List Byte) (he : e ∈ p) :
    ∃ b j, j ≤ b.length ∧ b.length + 1 = p.length ∧ insertAt b e j = p := by
  obtain ⟨s, t, rfl⟩ := List.append_of_mem he
  rcases List.eq_nil_or_concat t with rfl | ⟨t0, x, rfl⟩
  · exact ⟨s, s.length, le_refl _, by simp, insertAt_end s e⟩
  · refine ⟨s ++ x :: t0, s.length, by simp, by simp; omega, ?_⟩
    rw [insertAt_split, List.concat_eq_append]

theorem exists_snoc {α : Type} (l : List α) (n : Nat) (h : l.length = n + 1) :
    ∃ l0 a, l = l0 ++ [a] ∧ l0.length = n := by
  rcases List.eq_nil_or_concat l with rfl | ⟨l0, a, rfl⟩
  · simp at h
  · refine ⟨l0, a, List.concat_eq_append _ _, ?_⟩
    simpa using h

theorem validPositions_snoc (js : List Nat) (j : Nat) :
    ValidPositions (js ++ [j]) ↔ ValidPositions js ∧ j ≤ js.length := by
  constructor
  · intro h
    refine ⟨fun k x hk => ?_, ?_⟩
    · have hlt : k < js.length := by
        by_contra hge
        rw [List.getElem?_eq_none (by omega)] at hk
        cases hk
      exact h k x (by rw [List.getElem?_append_left hlt]; exact hk)
    · exact h js.length j (by rw [List.getElem?_append_right (le_refl _)]; simp)
  · rintro ⟨h1, h2⟩ k x hk
    by_cases hlt : k < js.length
    · rw [List.getElem?_append_left hlt] at hk
      exact h1 k x hk
    · rw [List.getElem?_append_right (by omega)] at hk
      have hk0 : k - js.length = 0 := by
        by_contra hne
        rw [List.getElem?_eq_none (by simp; omega)] at hk
        cases hk
      rw [hk0] at hk
      simp only [List.getElem?_cons_zero, Option.some.injEq] at hk
      omega

theorem insertSeq_snoc (e : Byte) (j : Nat) :
    ∀ (es : List Byte) (js : List Nat) (pass : List Byte), js.length = es.length →
      insertSeq pass (es ++ [e]) (js ++ [j]) = insertAt (insertSeq pass es js) e j := by
  intro es
  induction es with
  | nil =>
    intro js pass h
    have : js = [] := List.length_eq_zero.mp h
    subst this
    rfl
  | cons a es ih =>
    intro js pass h
    cases js with
    | nil => simp at h
    | cons i js =>
      simp only [List.cons_append, insertSeq]
      exact ih js _ (by simpa using h)

theorem insertSeq_perm :
    ∀ (es : List Byte) (js : List Nat) (pass : List Byte), js.length = es.length →
      (∀ k j : Nat, js[k]? = some j → j ≤ pass.length + k) →
      (insertSeq pass es js).Perm (pass ++ es) := by
  intro es
  induction es with
  | nil =>
    intro js pass _ _
    cases js <;> simp [insertSeq]
  | cons a es ih =>
    intro js pass h hv
    cases js with
    | nil => simp at h
    | cons i js =>
      simp only [insertSeq]
      have hi : i ≤ pass.length := by simpa using hv 0 i (by simp)
      refine (ih js _ (by simpa using h) (fun k j hk => ?_)).trans ?_
      · have := hv (k + 1) j (by simpa using hk)
        rw [insertAt_length pass a i hi]
        omega
      · have := (insertAt_perm pass a i hi).append_right es
        simpa using this

theorem insertSeq_injective (es : List Byte) :
    es.Nodup → ∀ js js' : List Nat, js.length = es.length → js'.length = es.length →
      ValidPositions js → ValidPositions js' →
      insertSeq [] es js = insertSeq [] es js' → js = js' := by
  induction es using List.reverseRecOn with
  | nil =>
    intro _ js js' h h' _ _ _
    rw [List.length_eq_zero.mp h, List.length_eq_zero.mp h']
  | append_singleton es e ih =>
    intro hnd js js' h h' hv hv' heq
    rw [List.length_append, List.length_singleton] at h h'
    obtain ⟨js0, j, rfl, hl0⟩ := exists_snoc js _ h
    obtain ⟨js0', j', rfl, hl0'⟩ := exists_snoc js' _ h'
    rw [validPositions_snoc] at hv hv'
    rw [insertSeq_snoc e j es js0 [] hl0, insertSeq_snoc e j' es js0' [] hl0'] at heq
    have hnd2 := List.nodup_append.mp hnd
    have hp := insertSeq_perm es js0 [] hl0 (fun k x hk => by
      have := hv.1 k x hk
      simpa using this)
    have hp' := insertSeq_perm es js0' [] hl0' (fun k x hk => by
      have := hv'.1 k x hk
      simpa using this)
    simp only [List.nil_append] at hp hp'
    have he : e ∉ insertSeq [] es js0 := fun hmem =>
      hnd2.2.2 (hp.subset hmem) (List.mem_singleton_self e)
    obtain ⟨hj, hb⟩ := insertAt_injective he (by rw [hp.length_eq, hp'.length_eq])
      (by rw [hp.length_eq]; omega) (by rw [hp'.length_eq]; omega) heq
    rw [hj, ih hnd2.1 js0 js0' hl0 hl0' hv.1 hv'.1 hb]

theorem insertSeq_surjective (es : List Byte) :
    ∀ p : List Byte, p.Perm es →
      ∃ js : List Nat, js.length = es.length ∧ ValidPositions js ∧ insertSeq [] es js = p := by
  induction es using List.reverseRecOn with
  | nil =>
    intro p hp
    refine ⟨[], rfl, fun k j hk => by simp at hk, ?_⟩
    rw [List.Perm.eq_nil hp]
    rfl
  | append_singleton es e ih =>
    intro p hp
    have he : e ∈ p := hp.symm.subset (by simp)
    obtain ⟨b, j, hj, hbl, hins⟩ := insertAt_surjective e p he
    have hb : b.Perm es := by
      have h1 : (b ++ [e]).Perm (es ++ [e]) := by
        rw [← hins] at hp
        exact (insertAt_perm b e j hj).symm.trans hp
      exact (List.perm_append_right_iff [e]).mp h1
    obtain ⟨js0, hl0, hv0, hrun⟩ := ih b hb
    refine ⟨js0 ++ [j], by simp [hl0], ?_, ?_⟩
    · rw [validPositions_snoc]
      exact ⟨hv0, by rw [hl0, ← hb.length_eq]; exact hj⟩
    · rw [insertSeq_snoc e j es js0 [] hl0, hrun, hins]

theorem insertAllFrom_eq (src : Source) :
    ∀ (es : List Byte) (js : List Nat) (pass : List Byte) (pos : Nat),
      js.length = es.length → (pass.length : Int) + es.length < 2 ^ 63 →
      (∀ k j : Nat, js[k]? = some j →
        src (pos + k) ((pass.length : Int) + k + 1) = .value (j : Int) ∧
          j ≤ pass.length + k) →
      insertAllFrom src es pass pos
        = .returned (insertSeq pass es js) none (pos + es.length) := by
  intro es
  induction es with
  | nil =>
    intro js pass pos h _ _
    have : js = [] := List.length_eq_zero.mp h
    subst this
    rfl
  | cons a es ih =>
    intro js pass pos h hlen hsrc
    cases js with
    | nil => simp at h
    | cons i js =>
      obtain ⟨hv, hi⟩ := hsrc 0 i (by simp)
      simp only [Nat.add_zero, Nat.cast_zero, add_zero] at hv hi
      simp only [List.length_cons, Nat.cast_add, Nat.cast_one] at hlen
      have hsw := @randomlySwap_eq_insertAt pass a src pos (i : Int)
        (by omega) hv (by omega) (by omega)
      simp only [Int.toNat_ofNat] at hsw
      unfold insertAllFrom
      rw [hsw]
      simp only [insertSeq]
      have hl1 : (insertAt pass a i).length = pass.length + 1 := insertAt_length pass a i hi
      rw [ih js (insertAt pass a i) (pos + 1) (by simpa using h)
        (by rw [hl1]; push_cast; omega) (fun k j hk => by
          obtain ⟨h1, h2⟩ := hsrc (k + 1) j (by simpa using hk)
          rw [hl1]
          refine ⟨?_, by omega⟩
          rw [show pos + 1 + k = pos + (k + 1) by omega]
          rw [show ((pass.length + 1 : Nat) : Int) + (k : Int) + 1
            = (pass.length : Int) + ((k + 1 : Nat) : Int) + 1 by push_cast; ring]
          exact h1)]
      simp only [List.length_cons]
      congr 1
      omega

theorem insertAll_eq (es : List Byte) (js : List Nat) (hlen : js.length = es.length)
    (hsmall : es.length ≤ 256) (hv : ValidPositions js) :
    insertAll es js = .returned (insertSeq [] es js) none es.length := by
  unfold insertAll
  have := insertAllFrom_eq (listSource js) es js [] 0 hlen
    (by simp only [List.length_nil]; omega) (fun k j hk => by
      refine ⟨?_, by simpa using hv k j hk⟩
      rw [Nat.zero_add]
      exact listSource_delivers js k j _ hk)
  simpa using this

theorem nodup_length_le (es : List Byte) (h : es.Nodup) : es.length ≤ 256 := by
  have := h.length_le_card
  rw [Fintype.card_fin] at this
  exact this

theorem countP_eq_one_of_mem {α : Type} [DecidableEq α] :
    ∀ (l : List α) (a : α), l.Nodup → a ∈ l → l.countP (fun x => decide (x = a)) = 1 := by
  intro l
  induction l with
  | nil => intro a _ h; simp at h
  | cons x l ih =>
    intro a hnd hmem
    obtain ⟨hx, hl⟩ := List.nodup_cons.mp hnd
    rw [List.countP_cons]
    by_cases hax : x = a
    · subst hax
      have : l.countP (fun y => decide (y = x)) = 0 := by
        rw [List.countP_eq_zero]
        intro y hy
        simpa using fun h : y = x => hx (h ▸ hy)
      simp [this]
    · have hm : a ∈ l := by
        rcases List.mem_cons.mp hmem with h | h
        · exact absurd h.symm hax
        · exact h
      simp [ih a hl hm, hax]

theorem mem_positionSeqs :
    ∀ (n : Nat) (js : List Nat), js ∈ positionSeqs n ↔ js.length = n ∧ ValidPositions js := by
  intro n
  induction n with
  | zero =>
    intro js
    simp only [positionSeqs, List.mem_singleton]
    constructor
    · rintro rfl
      exact ⟨rfl, fun k j hk => by simp at hk⟩
    · rintro ⟨h, _⟩
      exact List.length_eq_zero.mp h
  | succ n ih =>
    intro js
    simp only [positionSeqs, List.mem_flatMap, List.mem_map, List.mem_range]
    constructor
    · rintro ⟨js0, h0, j, hj, rfl⟩
      obtain ⟨hl, hv⟩ := (ih js0).mp h0
      exact ⟨by simp [hl], (validPositions_snoc js0 j).mpr ⟨hv, by omega⟩⟩
    · rintro ⟨hl, hv⟩
      obtain ⟨js0, j, rfl, hl0⟩ := exists_snoc js n hl
      obtain ⟨hv0, hj⟩ := (validPositions_snoc js0 j).mp hv
      exact ⟨js0, (ih js0).mpr ⟨hl0, hv0⟩, j, by omega, rfl⟩

theorem length_positionSeqs : ∀ n : Nat, (positionSeqs n).length = n.factorial := by
  intro n
  induction n with
  | zero => rfl
  | succ n ih =>
    simp only [positionSeqs, List.length_flatMap]
    have : (List.length ∘ fun js : List Nat => (List.range (n + 1)).map (fun j => js ++ [j]))
        = Function.const _ (n + 1) := by
      funext js
      simp
    rw [this, List.map_const, List.sum_const_nat, ih, Nat.factorial_succ, Nat.mul_comm]

theorem nodup_positionSeqs : ∀ n : Nat, (positionSeqs n).Nodup := by
  intro n
  induction n with
  | zero => simp [positionSeqs]
  | succ n ih =>
    simp only [positionSeqs]
    rw [List.nodup_flatMap]
    refine ⟨fun js _ => ?_, ?_⟩
    · refine (List.nodup_range (n + 1)).map ?_
      intro j j' h
      simpa using h
    · refine ih.pairwise_of_forall_ne (fun a _ b _ hab => ?_)
      intro x hx1 hx2
      obtain ⟨j, _, rfl⟩ := List.mem_map.mp hx1
      obtain ⟨j', _, h⟩ := List.mem_map.mp hx2
      exact hab (List.append_inj_left' h (by simp)).symm

/-- C12: for pairwise distinct bytes `e_1 .. e_n`, inserted in this order into
the empty slice by the insertion step of `randomlySwap` with the drawn positions
`j_1 .. j_n` (`0 ≤ j_k ≤ k - 1`): every position sequence yields an arrangement
of the bytes, different position sequences yield different arrangements, and
every arrangement is reached; there are `n!` position sequences and `n!`
arrangements, and each arrangement is the result of exactly one position
sequence.  So uniform independent positions make every arrangement equally
likely, whatever the order `e_1 .. e_n` in which the bytes are fed in. -/
theorem insertion_bijection (es : List Byte) (hnd : es.Nodup) :
    (∀ js : List Nat, js.length = es.length → ValidPositions js →
      ∃ p, insertAll es js = .returned p none es.length ∧ p.Perm es) ∧
    (∀ js js' : List Nat, js.length = es.length → js'.length = es.length →
      ValidPositions js → ValidPositions js' → insertAll es js = insertAll es js' →
      js = js') ∧
    (∀ p : List Byte, p.Perm es →
      ∃ js : List Nat, js.length = es.length ∧ ValidPositions js ∧
        insertAll es js = .returned p none es.length) ∧
    (∀ js : List Nat, js ∈ positionSeqs es.length ↔
      js.length = es.length ∧ ValidPositions js) ∧
    (positionSeqs es.length).Nodup ∧
    (positionSeqs es.length).length = es.length.factorial ∧
    es.permutations.length = es.length.factorial ∧
    (∀ p : List Byte, p.Perm es →
      (positionSeqs es.length).countP
        (fun js => decide (insertAll es js = .returned p none es.length)) = 1) := by
  have hsmall := nodup_length_le es hnd
  have hinj : ∀ js js' : List Nat, js.length = es.length → js'.length = es.length →
      ValidPositions js → ValidPositions js' → insertAll es js = insertAll es js' →
      js = js' := by
    intro js js' hl hl' hv hv' heq
    rw [insertAll_eq es js hl hsmall hv, insertAll_eq es js' hl' hsmall hv'] at heq
    injection heq with hval _ _
    exact insertSeq_injective es hnd js js' hl hl' hv hv' hval
  have hsurj : ∀ p : List Byte, p.Perm es →
      ∃ js : List Nat, js.length = es.length ∧ ValidPositions js ∧
        insertAll es js = .returned p none es.length := by
    intro p hp
    obtain ⟨js, hl, hv, hrun⟩ := insertSeq_surjective es p hp
    exact ⟨js, hl, hv, by rw [insertAll_eq es js hl hsmall hv, hrun]⟩
  refine ⟨?_, hinj, hsurj, mem_positionSeqs es.length, nodup_positionSeqs es.length,
    length_positionSeqs es.length, List.length_permutations es, ?_⟩
  · intro js hl hv
    refine ⟨insertSeq [] es js, insertAll_eq es js hl hsmall hv, ?_⟩
    have := insertSeq_perm es js [] hl (fun k j hk => by simpa using hv k j hk)
    simpa using this
  · intro p hp
    obtain ⟨js0, hl0, hv0, hrun0⟩ := hsurj p hp
    have hmem0 : js0 ∈ positionSeqs es.length := (mem_positionSeqs _ _).mpr ⟨hl0, hv0⟩
    rw [List.countP_congr (q := fun js => decide (js = js0)) (fun js hjs => by
      obtain ⟨hl, hv⟩ := (mem_positionSeqs _ _).mp hjs
      simp only [decide_eq_true_eq]
      constructor
      · intro h
        exact hinj js js0 hl hl0 hv hv0 (by rw [h, hrun0])
      · rintro rfl
        exact hrun0)]
    exact countP_eq_one_of_mem _ js0 (nodup_positionSeqs es.length) hmem0

/-- C12, witness: the three bytes 10, 20, 30. -/
theorem insertion_bijection_witness :
    (∀ p : List Byte, p.Perm [10, 20, 30] →
      (positionSeqs ([10, 20, 30] : List Byte).length).countP
        (fun js => decide (insertAll [10, 20, 30] js
          = .returned p none ([10, 20, 30] : List Byte).length)) = 1) ∧
    insertAll [10, 20, 30] [0, 0, 1] = .returned [20, 30, 10] none 3 :=
  ⟨(insertion_bijection [10, 20, 30] (by decide)).2.2.2.2.2.2.2, by decide⟩

end Password
